import Mathlib

/-!
Verification of the bencode codec and torrent-metadata projector of the
repository (source: `src/bitTorrentClient/bencodeDecoder.go`).

The decoder is embedded shallowly: the Go byte stream becomes a `List Nat`
of byte values and every decoding function becomes a pure function that
returns the decoded value together with the unconsumed remainder of the
input, or an error.  The Go functions `decode`, `decodeInt`,
`decodeString`, `decodeList`, `decodeDict`, `parseTorrent`,
`parseTorrentInfo` and `DecodeTorrent` each have a Lean counterpart of the
same name.  Recursion in the decoder is bounded by an explicit fuel
parameter; the top-level wrapper supplies fuel `3 * input.length + 2`,
which is proved sufficient on every input (`decode_never_outOfFuel`), so
the wrapper is total and agrees with the Go recursion everywhere.

The encoder is not part of the repository sources (the repository calls an
external library for encoding); it is modelled from the spec where a claim
needs it, see `encode` below.
-/

/-- Byte values of a Lean string literal, used to write concrete inputs
and dictionary keys compactly. -/
def bs (s : String) : List Nat := s.data.map Char.toNat

/-- Generic decoded value: the shallow embedding of the dynamic
`interface{}` values produced by the Go decoder, which are always one of
`int64`, `string`, `[]interface{}` or `map[string]interface{}`.  A Go map
is represented as an association list built by `goInsert`, which keeps
keys unique exactly like a Go map does. -/
inductive Bencode where
  | int (n : Int)
  | str (s : List Nat)
  | list (l : List Bencode)
  | dict (d : List (List Nat × Bencode))

/-- Outcomes of the Go decoder.  `eof` stands for the `io.EOF` /
`io.ErrUnexpectedEOF` errors of the byte reader, `parseIntErr` for an
error returned by `strconv.ParseInt` (empty digits, stray characters, or
a value outside the signed 64-bit range), `truncated` for the error of
`io.ReadFull` when fewer bytes remain than a string declared,
`unexpectedChar c` for the `unexpected character` error of `decode`, and
`negLenPanic` marks the runtime panic of `make([]byte, length)` when a
declared string length parses to a negative number — a crash of the Go
program, not an error value it returns.  `outOfFuel` is an artefact of
the fuel-bounded embedding and is never produced with the fuel supplied
by the top-level `decode` wrapper on the inputs of the theorems below. -/
inductive GoErr where
  | eof
  | parseIntErr
  | truncated
  | negLenPanic
  | unexpectedChar (c : Nat)
  | outOfFuel
  deriving DecidableEq, Repr

/-- Reads bytes up to (and consuming) the first occurrence of `sep`,
returning the bytes before it and the remainder; `none` when the input
ends first.  This models the `for { ch := next(); if ch == sep break }`
loops of `decodeInt` and `decodeString`. -/
def readUntil (sep : Nat) : List Nat → Option (List Nat × List Nat)
  | [] => none
  | c :: rest =>
    if c = sep then some ([], rest)
    else (readUntil sep rest).map (fun p => (c :: p.1, p.2))

/-- Digit-run accumulator of `strconv.ParseUint`: folds base-10 digits,
failing on any non-digit byte. -/
def parseDigitsAux (acc : Nat) : List Nat → Option Nat
  | [] => some acc
  | c :: rest =>
    if 48 ≤ c ∧ c ≤ 57 then parseDigitsAux (acc * 10 + (c - 48)) rest
    else none

/-- Unsigned decimal parse: fails on the empty string and on any
non-digit byte, as `strconv.ParseUint` does. -/
def parseNatDigits (l : List Nat) : Option Nat :=
  if l = [] then none else parseDigitsAux 0 l

/-- Model of `strconv.ParseInt(s, 10, 64)`: an optional leading `+` or
`-` sign, then a non-empty run of decimal digits, with the signed 64-bit
range check (`ErrRange` becomes `none`).  Note that it accepts `-0`,
`+3` and leading zeros, exactly as the Go standard library does. -/
def parseIntGo (l : List Nat) : Option Int :=
  match l with
  | [] => none
  | c :: rest =>
    if c = 43 then
      (parseNatDigits rest).bind fun m =>
        if m < 2 ^ 63 then some (m : Int) else none
    else if c = 45 then
      (parseNatDigits rest).bind fun m =>
        if m ≤ 2 ^ 63 then some (-(m : Int)) else none
    else
      (parseNatDigits l).bind fun m =>
        if m < 2 ^ 63 then some (m : Int) else none

/-- Embedding of the Go `decodeInt`: consume the leading `i` byte, read
bytes up to `e` (byte 101), and hand the run to `strconv.ParseInt`. -/
def decodeInt : List Nat → Except GoErr (Int × List Nat)
  | [] => .error .eof
  | _ :: rest =>
    match readUntil 101 rest with
    | none => .error .eof
    | some (numStr, r) =>
      match parseIntGo numStr with
      | none => .error .parseIntErr
      | some n => .ok (n, r)

/-- Embedding of the Go `decodeString`: read bytes up to `:` (byte 58),
parse them with `strconv.ParseInt`, then `make([]byte, length)` — which
panics when `length` is negative — and `io.ReadFull` exactly that many
bytes. -/
def decodeString (l : List Nat) : Except GoErr (List Nat × List Nat) :=
  match readUntil 58 l with
  | none => .error .eof
  | some (lengthStr, r) =>
    match parseIntGo lengthStr with
    | none => .error .parseIntErr
    | some n =>
      if n < 0 then .error .negLenPanic
      else if r.length < n.toNat then .error .truncated
      else .ok (r.take n.toNat, r.drop n.toNat)

/-- Go map update `dict[key] = value` on the association-list model:
replaces the binding in place when the key exists, appends otherwise. -/
def goInsert (k : List Nat) (v : Bencode) :
    List (List Nat × Bencode) → List (List Nat × Bencode)
  | [] => [(k, v)]
  | (k₂, v₂) :: rest =>
    if k₂ = k then (k, v) :: rest else (k₂, v₂) :: goInsert k v rest

mutual

/-- Embedding of the Go `decode`: peek one byte and dispatch on it
(`i` = 105, digits 48–57, `l` = 108, `d` = 100), failing with the
`unexpected character` error otherwise.  The first argument is fuel; the
top-level wrapper `decode` supplies enough of it. -/
def decodeF : Nat → List Nat → Except GoErr (Bencode × List Nat)
  | 0, _ => .error .outOfFuel
  | _ + 1, [] => .error .eof
  | n + 1, c :: rest =>
    if c = 105 then
      match decodeInt (c :: rest) with
      | .error e => .error e
      | .ok (v, r) => .ok (.int v, r)
    else if 48 ≤ c ∧ c ≤ 57 then
      match decodeString (c :: rest) with
      | .error e => .error e
      | .ok (s, r) => .ok (.str s, r)
    else if c = 108 then decodeList n (c :: rest)
    else if c = 100 then decodeDict n (c :: rest)
    else .error (.unexpectedChar c)

/-- Embedding of the Go `decodeList`: consume the leading `l` byte and
run the element loop. -/
def decodeList : Nat → List Nat → Except GoErr (Bencode × List Nat)
  | 0, _ => .error .outOfFuel
  | _ + 1, [] => .error .eof
  | n + 1, _ :: rest =>
    match decodeListItems n rest with
    | .error e => .error e
    | .ok (items, r) => .ok (.list items, r)

/-- Element loop of the Go `decodeList`: peek; on `e` (byte 101) consume
it and stop, otherwise decode one element and continue.  Elements are
returned in input order, as the Go `append` builds them. -/
def decodeListItems : Nat → List Nat → Except GoErr (List Bencode × List Nat)
  | 0, _ => .error .outOfFuel
  | _ + 1, [] => .error .eof
  | n + 1, c :: rest =>
    if c = 101 then .ok ([], rest)
    else
      match decodeF n (c :: rest) with
      | .error e => .error e
      | .ok (item, r) =>
        match decodeListItems n r with
        | .error e => .error e
        | .ok (items, r₂) => .ok (item :: items, r₂)

/-- Embedding of the Go `decodeDict`: consume the leading `d` byte and
run the entry loop starting from the empty map. -/
def decodeDict : Nat → List Nat → Except GoErr (Bencode × List Nat)
  | 0, _ => .error .outOfFuel
  | _ + 1, [] => .error .eof
  | n + 1, _ :: rest => decodeDictItems n [] rest

/-- Entry loop of the Go `decodeDict`: peek; on `e` (byte 101) consume it
and stop, otherwise decode a key with `decodeString`, a value with
`decode`, and store the pair with the Go map assignment
`dict[key] = value` (`goInsert`). -/
def decodeDictItems : Nat → List (List Nat × Bencode) → List Nat →
    Except GoErr (Bencode × List Nat)
  | 0, _, _ => .error .outOfFuel
  | _ + 1, _, [] => .error .eof
  | n + 1, acc, c :: rest =>
    if c = 101 then .ok (.dict acc, rest)
    else
      match decodeString (c :: rest) with
      | .error e => .error e
      | .ok (key, r) =>
        match decodeF n r with
        | .error e => .error e
        | .ok (value, r₂) => decodeDictItems n (goInsert key value acc) r₂

end

/-- Top-level decode on a finite input: runs `decodeF` with fuel
`3 * input.length + 2`, which never runs out (`decode_never_outOfFuel`
below), so `decode` is the exact big-step semantics of the Go `decode`
on a finite byte stream. -/
def decode (l : List Nat) : Except GoErr (Bencode × List Nat) :=
  decodeF (3 * l.length + 2) l

/-- Go map lookup `m[key]` on the association-list model.  On maps built
by `goInsert` the keys are unique, so the first match is the binding. -/
def dictGet (k : List Nat) : List (List Nat × Bencode) → Option Bencode
  | [] => none
  | (k₂, v) :: rest => if k₂ = k then some v else dictGet k rest

/-- Embedding of the Go `TorrentFile` struct.  Go strings become byte
lists. -/
structure TorrentFile where
  length : Int
  path : List (List Nat)
  deriving DecidableEq, Repr

/-- Embedding of the Go `TorrentInfo` struct, with Go zero values
(`0`, empty string, nil slice) as the defaults the code relies on. -/
structure TorrentInfo where
  pieceLength : Int
  pieces : List Nat
  priv : Int
  name : List Nat
  length : Int
  files : List TorrentFile
  deriving DecidableEq, Repr

/-- Embedding of the Go `Torrent` struct. -/
structure Torrent where
  announce : List Nat
  announceList : List (List (List Nat))
  creationDate : Int
  comment : List Nat
  createdBy : List Nat
  info : TorrentInfo
  deriving DecidableEq, Repr

/-- Error values of `parseTorrentInfo`, one constructor per distinct
`errors.New` message in the Go source.  `missingName` corresponds to
`missing required field name`, which the code returns both when `name`
is absent and when it is present with a non-string type (a combined type
assertion on the map lookup). -/
inductive IErr where
  | missingPieceLength
  | pieceLengthNotInt
  | missingPieces
  | piecesNotString
  | missingName
  | privateNotInt
  | bothLengthAndFiles
  | lengthNotInt
  | filesNotList
  | fileEntryNotDict
  | fileMissingLength
  | fileLengthNotInt
  | fileMissingPath
  | filePathNotList
  | pathPartNotString
  | missingLengthAndFiles
  deriving DecidableEq, Repr

/-- Error values of `parseTorrent`, one constructor per distinct
`errors.New` message in the Go source.  `missingAnnounce` corresponds to
`missing required field announce`, which the code returns both when
`announce` is absent and when it is present with a non-string type (a
combined type assertion on the map lookup, line 213 of the source).
`infoErr e` is the wrapped `error parsing info: ...` message. -/
inductive TErr where
  | topLevelNotDict
  | missingAnnounce
  | announceListNotList
  | tierNotList
  | urlNotString
  | creationDateNotInt
  | missingInfo
  | infoNotDict
  | infoErr (e : IErr)
  deriving DecidableEq, Repr

/-- URL loop of the Go `announce-list` handling: every element of a tier
must be a string. -/
def parseTier : List Bencode → Except TErr (List (List Nat))
  | [] => .ok []
  | .str url :: rest => (parseTier rest).map (fun urls => url :: urls)
  | _ :: _ => .error .urlNotString

/-- Tier loop of the Go `announce-list` handling: every tier must be a
list of strings. -/
def parseTiers : List Bencode → Except TErr (List (List (List Nat)))
  | [] => .ok []
  | .list tier :: rest =>
    match parseTier tier with
    | .error e => .error e
    | .ok urls =>
      match parseTiers rest with
      | .error e => .error e
      | .ok tiers => .ok (urls :: tiers)
  | _ :: _ => .error .tierNotList

/-- File-path loop of the Go `parseTorrentInfo`: every path element must
be a string. -/
def parsePath : List Bencode → Except IErr (List (List Nat))
  | [] => .ok []
  | .str p :: rest => (parsePath rest).map (fun ps => p :: ps)
  | _ :: _ => .error .pathPartNotString

/-- One entry of the `files` list in the Go `parseTorrentInfo`: a
dictionary with a required integer `length` and a required string-list
`path`, checked in that order. -/
def parseFile : Bencode → Except IErr TorrentFile
  | .dict fm =>
    match dictGet (bs "length") fm with
    | none => .error .fileMissingLength
    | some (.int len) =>
      match dictGet (bs "path") fm with
      | none => .error .fileMissingPath
      | some (.list pl) => (parsePath pl).map (fun p => ⟨len, p⟩)
      | some _ => .error .filePathNotList
    | some _ => .error .fileLengthNotInt
  | _ => .error .fileEntryNotDict

/-- Loop over the `files` list of the Go `parseTorrentInfo`. -/
def parseFiles : List Bencode → Except IErr (List TorrentFile)
  | [] => .ok []
  | f :: rest =>
    match parseFile f with
    | .error e => .error e
    | .ok tf =>
      match parseFiles rest with
      | .error e => .error e
      | .ok tfs => .ok (tf :: tfs)

/-- Embedding of the Go `parseTorrentInfo`: required `piece length`
(integer, with distinct missing and wrong-type errors), required
`pieces` (string, distinct errors), required `name` (string, one
combined error for missing or wrong type), optional `private` (integer
if present), then the mutually exclusive `length` / `files` check in
source order: both present is an error, then single-file `length`, then
multi-file `files`, then neither present is an error. -/
def parseTorrentInfo (infoMap : List (List Nat × Bencode)) :
    Except IErr TorrentInfo :=
  match dictGet (bs "piece length") infoMap with
  | none => .error .missingPieceLength
  | some (.int pieceLength) =>
    match dictGet (bs "pieces") infoMap with
    | none => .error .missingPieces
    | some (.str pieces) =>
      match dictGet (bs "name") infoMap with
      | some (.str name) =>
        match
          match dictGet (bs "private") infoMap with
          | none => Except.ok (0 : Int)
          | some (.int priv) => Except.ok priv
          | some _ => Except.error IErr.privateNotInt
        with
        | .error e => .error e
        | .ok priv =>
          if (dictGet (bs "length") infoMap).isSome ∧
             (dictGet (bs "files") infoMap).isSome then
            .error .bothLengthAndFiles
          else if (dictGet (bs "length") infoMap).isSome then
            match dictGet (bs "length") infoMap with
            | some (.int len) =>
              .ok ⟨pieceLength, pieces, priv, name, len, []⟩
            | _ => .error .lengthNotInt
          else if (dictGet (bs "files") infoMap).isSome then
            match dictGet (bs "files") infoMap with
            | some (.list fl) =>
              match parseFiles fl with
              | .error e => .error e
              | .ok tfs => .ok ⟨pieceLength, pieces, priv, name, 0, tfs⟩
            | _ => .error .filesNotList
          else .error .missingLengthAndFiles
      | _ => .error .missingName
    | some _ => .error .piecesNotString
  | some _ => .error .pieceLengthNotInt

/-- Embedding of the Go `parseTorrent`: the top level must be a
dictionary; `announce` is required (one combined error for missing or
wrong type); `announce-list` is optional but must be a list of lists of
strings when present; `creation date` is optional but must be an integer
when present; `comment` and `created by` are optional and silently
ignored when present with a non-string type; `info` is required, must be
a dictionary, and its projection errors are wrapped. -/
def parseTorrent (data : Bencode) : Except TErr Torrent :=
  match data with
  | .dict topLevel =>
    match dictGet (bs "announce") topLevel with
    | some (.str announce) =>
      match
        match dictGet (bs "announce-list") topLevel with
        | none => Except.ok ([] : List (List (List Nat)))
        | some (.list tiers) => parseTiers tiers
        | some _ => Except.error TErr.announceListNotList
      with
      | .error e => .error e
      | .ok annList =>
        match
          match dictGet (bs "creation date") topLevel with
          | none => Except.ok (0 : Int)
          | some (.int cd) => Except.ok cd
          | some _ => Except.error TErr.creationDateNotInt
        with
        | .error e => .error e
        | .ok creationDate =>
          let comment :=
            match dictGet (bs "comment") topLevel with
            | some (.str s) => s
            | _ => []
          let createdBy :=
            match dictGet (bs "created by") topLevel with
            | some (.str s) => s
            | _ => []
          match dictGet (bs "info") topLevel with
          | none => .error .missingInfo
          | some (.dict infoMap) =>
            match parseTorrentInfo infoMap with
            | .error e => .error (.infoErr e)
            | .ok info =>
              .ok ⟨announce, annList, creationDate, comment, createdBy, info⟩
          | some _ => .error .infoNotDict
    | _ => .error .missingAnnounce
  | _ => .error .topLevelNotDict

/-- Combined error type of the Go `DecodeTorrent`. -/
inductive TorrentErr where
  | decodeErr (e : GoErr)
  | parseErr (e : TErr)
  deriving DecidableEq, Repr

/-- Embedding of the Go `DecodeTorrent`: decode one value from the input
and project it; bytes remaining after the first value are ignored. -/
def DecodeTorrent (l : List Nat) : Except TorrentErr Torrent :=
  match decode l with
  | .error e => .error (.decodeErr e)
  | .ok (data, _) =>
    match parseTorrent data with
    | .error e => .error (.parseErr e)
    | .ok t => .ok t

/-! ## The encoder, modelled from the spec

The repository itself performs encoding through an external library, so
the encoder is not in the sources under verification.  The definitions
below follow the wording of the spec: integers become `i<decimal>e` with
a minimal decimal representation, byte strings become `<len>:<raw>`,
lists concatenate their encoded items between `l` and `e`, and
dictionaries emit their key/value pairs sorted by ascending
byte-lexicographic key between `d` and `e`, regardless of the order the
dictionary was built in. -/

/-- Minimal base-10 ASCII digits of a natural number (no leading zeros,
a single `0` for zero). -/
def natDecimal (n : Nat) : List Nat :=
  if h : n < 10 then [n + 48]
  else natDecimal (n / 10) ++ [n % 10 + 48]
decreasing_by exact Nat.div_lt_self (by omega) (by omega)

/-- Minimal signed decimal representation: a leading `-` (byte 45)
exactly when the integer is negative. -/
def intDecimal (n : Int) : List Nat :=
  if n < 0 then 45 :: natDecimal (-n).toNat else natDecimal n.toNat

/-- Byte-lexicographic order on byte strings (the dictionary key order
the spec requires for canonical encoding). -/
def lexLe : List Nat → List Nat → Bool
  | [], _ => true
  | _ :: _, [] => false
  | a :: as, b :: bs₂ =>
    if a < b then true else if b < a then false else lexLe as bs₂

/-- Ordering of dictionary entries by their key. -/
def keyRel {α : Type} (p q : List Nat × α) : Prop := lexLe p.1 q.1 = true

instance {α : Type} : DecidableRel (keyRel (α := α)) :=
  fun _ _ => inferInstanceAs (Decidable (_ = true))

/-- Concatenation of the encoded-pair bytes of a dictionary entry
list. -/
def joinVals : List (List Nat × List Nat) → List Nat
  | [] => []
  | p :: rest => p.2 ++ joinVals rest

/-- Spec encoding of one byte string: `<len>:<raw bytes>`. -/
def strEnc (s : List Nat) : List Nat := natDecimal s.length ++ 58 :: s

mutual

/-- Modelled from the spec: `encode(value) → bytes`, the canonical
encoder the repository obtains from an external library.  Integer →
`i<decimal>e`; ByteString → `<len>:<raw bytes>`; List → `l<items>e`;
Dictionary → `d<pairs sorted by ascending byte-lexicographic key>e`.
Each dictionary entry is encoded first (`encEntries`) and the encoded
pairs are then sorted by key and concatenated, which is the sort
regardless of construction order that the spec demands. -/
def encode : Bencode → List Nat
  | .int n => 105 :: intDecimal n ++ [101]
  | .str s => strEnc s
  | .list xs => 108 :: encodeList xs ++ [101]
  | .dict d => 100 :: joinVals (List.insertionSort keyRel (encEntries d)) ++ [101]

/-- Concatenation of the encodings of list items, in order. -/
def encodeList : List Bencode → List Nat
  | [] => []
  | x :: xs => encode x ++ encodeList xs

/-- Encodes every dictionary entry to its `<key bytes><value bytes>`
pair, keeping the key for the later sort. -/
def encEntries : List (List Nat × Bencode) → List (List Nat × List Nat)
  | [] => []
  | (k, v) :: rest => (k, strEnc k ++ encode v) :: encEntries rest

end

mutual

/-- Canonical form of a value: every dictionary, recursively, has its
entries sorted by ascending byte-lexicographic key.  Decoding a
canonically encoded value yields exactly the canonical form, and a value
equals its canonical form up to the order of dictionary entries — the
compare dictionaries as sets of key/value pairs reading of the spec. -/
def canon : Bencode → Bencode
  | .int n => .int n
  | .str s => .str s
  | .list xs => .list (canonList xs)
  | .dict d => .dict (List.insertionSort keyRel (canonEntries d))

/-- Pointwise canonicalization of list items. -/
def canonList : List Bencode → List Bencode
  | [] => []
  | x :: xs => canon x :: canonList xs

/-- Pointwise canonicalization of dictionary entry values. -/
def canonEntries : List (List Nat × Bencode) → List (List Nat × Bencode)
  | [] => []
  | (k, v) :: rest => (k, canon v) :: canonEntries rest

end

/-- Pairwise distinctness of dictionary keys. -/
def distinctKeys : List (List Nat × Bencode) → Bool
  | [] => true
  | (k, _) :: rest =>
    rest.all (fun p => decide (p.1 ≠ k)) && distinctKeys rest

mutual

/-- Representable generic value, per the data model of the spec: every
integer fits the signed 64-bit range and every dictionary, recursively,
has unique keys. -/
def wfB : Bencode → Bool
  | .int n => decide (-(2 ^ 63 : Int) ≤ n) && decide (n < 2 ^ 63)
  | .str s => decide (s.length < 2 ^ 63)
  | .list xs => wfList xs
  | .dict d => distinctKeys d && wfEntries d

/-- Well-formedness of every item of a list. -/
def wfList : List Bencode → Bool
  | [] => true
  | x :: xs => wfB x && wfList xs

/-- Well-formedness of every entry of a dictionary: the key has a
representable length and the value is well-formed. -/
def wfEntries : List (List Nat × Bencode) → Bool
  | [] => true
  | (k, v) :: rest => decide (k.length < 2 ^ 63) && wfB v && wfEntries rest

end

/-- Structural equality up to the order of dictionary entries,
recursively: both values have the same canonical form.  With unique
keys, sorting dictionary entries by key canonicalizes the set of
key/value pairs, so this is the spec notion of comparing dictionaries as
sets of key/value pairs. -/
def setEq (a b : Bencode) : Prop := canon a = canon b

/-- Byte stream of a sequence of dictionary entries: each entry is the
encoded key followed by the encoded value. -/
def entriesBytes : List (List Nat × Bencode) → List Nat
  | [] => []
  | (k, v) :: rest => strEnc k ++ (encode v ++ entriesBytes rest)

/-- The decoder, given enough fuel, maps the encoding of `x` followed by
any remainder to the canonical form of `x` and that remainder.  This is
the induction motive of the round-trip proof. -/
def ItemOk (x : Bencode) : Prop :=
  ∀ f rest, 3 * (encode x).length + 2 ≤ f →
    decodeF f (encode x ++ rest) = .ok (canon x, rest)

/-- Go map insertion of canonicalized values, over a whole entry list:
how `decodeDict` accumulates the entries it reads back. -/
def foldGo (acc : List (List Nat × Bencode)) :
    List (List Nat × Bencode) → List (List Nat × Bencode)
  | [] => acc
  | (k, v) :: rest => foldGo (goInsert k (canon v) acc) rest

/-- Value of the last occurrence of a key in an entry sequence, `none`
when the key never occurs. -/
def lastVal (k : List Nat) : List (List Nat × Bencode) → Option Bencode
  | [] => none
  | (k₂, v) :: rest =>
    match lastVal k rest with
    | some w => some w
    | none => if k₂ = k then some v else none

/-- Induction over the nested `Bencode` type: list items and dictionary
entry values are available as inductive hypotheses. -/
theorem Bencode.inductionOn {motive : Bencode → Prop}
    (hint : ∀ n, motive (.int n)) (hstr : ∀ s, motive (.str s))
    (hlist : ∀ xs, (∀ x ∈ xs, motive x) → motive (.list xs))
    (hdict : ∀ d, (∀ p ∈ d, motive p.2) → motive (.dict d)) :
    ∀ v, motive v := by
  have key : ∀ (N : Nat) (v : Bencode), sizeOf v ≤ N → motive v := by
    intro N
    induction N with
    | zero =>
      intro v h
      exfalso
      cases v <;> simp at h
    | succ N ih =>
      intro v h
      match v with
      | .int n => exact hint n
      | .str s => exact hstr s
      | .list xs =>
        refine hlist xs (fun x hx => ih x ?_)
        have hs := List.sizeOf_lt_of_mem hx
        simp at h
        omega
      | .dict d =>
        refine hdict d (fun p hp => ih p.2 ?_)
        have hs := List.sizeOf_lt_of_mem hp
        obtain ⟨k, v₂⟩ := p
        simp at h hs ⊢
        omega
  exact fun v => key (sizeOf v) v le_rfl

example : parseTorrent (.dict []) = .error .missingAnnounce := rfl
example : parseTorrent (.dict [(bs "announce", .int 5)]) =
    .error .missingAnnounce := rfl
example : parseTorrent (.int 3) = .error .topLevelNotDict := rfl
example :
    parseTorrent (.dict [(bs "announce", .str (bs "u")),
      (bs "info", .dict [(bs "piece length", .int 1),
        (bs "pieces", .str []), (bs "name", .str (bs "n")),
        (bs "length", .int 7)])]) =
    .ok ⟨bs "u", [], 0, [], [], ⟨1, [], 0, bs "n", 7, []⟩⟩ := rfl
example :
    parseTorrentInfo [(bs "piece length", .int 1), (bs "pieces", .str []),
      (bs "name", .str (bs "n")), (bs "length", .int 7),
      (bs "files", .list [])] = .error .bothLengthAndFiles := rfl
example :
    parseTorrentInfo [(bs "piece length", .int 1), (bs "pieces", .str []),
      (bs "name", .str (bs "n"))] = .error .missingLengthAndFiles := rfl

example : decode (bs "i3e") = .ok (.int 3, []) := rfl
example : decode (bs "i-0e") = .ok (.int 0, []) := rfl
example : decode (bs "4:spam") = .ok (.str (bs "spam"), []) := rfl
example : decode (bs "5:spam") = .error .truncated := rfl
example : decode (bs "l4:spami42ee") =
    .ok (.list [.str (bs "spam"), .int 42], []) := rfl
example : decode (bs "d-1:xe") = .error .negLenPanic := rfl
example : decode (bs "d1:ai1e1:ai2ee") =
    .ok (.dict [(bs "a", .int 2)], []) := rfl

/-! ## Lemmas about `readUntil` and decimal digits -/

theorem readUntil_eq_some {sep : Nat} :
    ∀ {l a r : List Nat}, readUntil sep l = some (a, r) →
      sep ∉ a ∧ l = a ++ sep :: r := by
  intro l
  induction l with
  | nil => intro a r h; simp [readUntil] at h
  | cons c rest ih =>
    intro a r h
    by_cases hc : c = sep
    · subst hc
      simp [readUntil] at h
      obtain ⟨ha, hr⟩ := h
      subst ha; subst hr
      simp
    · rw [readUntil, if_neg hc] at h
      cases hm : readUntil sep rest with
      | none => rw [hm] at h; simp at h
      | some p =>
        obtain ⟨a₂, r₂⟩ := p
        rw [hm] at h
        simp at h
        obtain ⟨ha, hr⟩ := h
        obtain ⟨hsep, heq⟩ := ih hm
        subst hr
        constructor
        · intro hmem
          rw [← ha] at hmem
          rcases List.mem_cons.mp hmem with h₁ | h₁
          · exact hc h₁.symm
          · exact hsep h₁
        · rw [← ha, heq]; simp

theorem readUntil_clean (sep : Nat) :
    ∀ (a r : List Nat), sep ∉ a → readUntil sep (a ++ sep :: r) = some (a, r) := by
  intro a
  induction a with
  | nil => intro r _; simp [readUntil]
  | cons c as ih =>
    intro r h
    have hc : ¬(c = sep) := fun hcc => h (by rw [hcc]; exact List.mem_cons_self _ _)
    have has : sep ∉ as := fun hm => h (List.mem_cons_of_mem _ hm)
    rw [List.cons_append, readUntil, if_neg hc, ih r has]
    rfl

theorem natDecimal_digits :
    ∀ n, ∀ c ∈ natDecimal n, 48 ≤ c ∧ c ≤ 57 := by
  intro n
  induction n using Nat.strong_induction_on with
  | _ n ih =>
    intro c hc
    rw [natDecimal] at hc
    by_cases h : n < 10
    · simp [h] at hc
      omega
    · simp [h] at hc
      rcases hc with hc | hc
      · exact ih (n / 10) (Nat.div_lt_self (by omega) (by omega)) c hc
      · have : n % 10 < 10 := Nat.mod_lt n (by omega)
        omega

theorem natDecimal_ne_nil (n : Nat) : natDecimal n ≠ [] := by
  rw [natDecimal]
  by_cases h : n < 10 <;> simp [h]

theorem parseDigitsAux_append :
    ∀ (xs ys : List Nat) (acc : Nat),
      parseDigitsAux acc (xs ++ ys) =
        (parseDigitsAux acc xs).bind (fun m => parseDigitsAux m ys) := by
  intro xs
  induction xs with
  | nil => intro ys acc; simp [parseDigitsAux]
  | cons c rest ih =>
    intro ys acc
    by_cases h : 48 ≤ c ∧ c ≤ 57
    · simp only [List.cons_append, parseDigitsAux, if_pos h]
      exact ih ys _
    · simp [parseDigitsAux, h]

theorem parseDigitsAux_natDecimal :
    ∀ (n acc : Nat),
      parseDigitsAux acc (natDecimal n) =
        some (acc * 10 ^ (natDecimal n).length + n) := by
  intro n
  induction n using Nat.strong_induction_on with
  | _ n ih =>
    intro acc
    rw [natDecimal]
    by_cases h : n < 10
    · have hd : 48 ≤ n + 48 ∧ n + 48 ≤ 57 := by omega
      simp [h, parseDigitsAux, hd]
    · have hlt : n / 10 < n := Nat.div_lt_self (by omega) (by omega)
      have hd : 48 ≤ n % 10 + 48 ∧ n % 10 + 48 ≤ 57 := by
        have : n % 10 < 10 := Nat.mod_lt n (by omega)
        omega
      simp only [h, if_neg, dite_false, parseDigitsAux_append, ih (n / 10) hlt,
        parseDigitsAux, if_pos hd, List.length_append,
        List.length_cons, List.length_nil, Nat.add_sub_cancel, pow_succ,
        Option.some_bind]
      congr 1
      have hdm : n / 10 * 10 + n % 10 = n := by omega
      calc (acc * 10 ^ (natDecimal (n / 10)).length + n / 10) * 10 + n % 10
          = acc * (10 ^ (natDecimal (n / 10)).length * 10) +
              (n / 10 * 10 + n % 10) := by ring
        _ = acc * (10 ^ (natDecimal (n / 10)).length * 10) + n := by rw [hdm]

theorem parseNatDigits_natDecimal (n : Nat) :
    parseNatDigits (natDecimal n) = some n := by
  rw [parseNatDigits, if_neg (natDecimal_ne_nil n), parseDigitsAux_natDecimal]
  simp

theorem natDecimal_head :
    ∀ n, ∃ c cs, natDecimal n = c :: cs ∧ 48 ≤ c ∧ c ≤ 57 := by
  intro n
  obtain ⟨c, cs, hcons⟩ := List.exists_cons_of_ne_nil (natDecimal_ne_nil n)
  have hd := natDecimal_digits n c (by rw [hcons]; exact List.mem_cons_self _ _)
  exact ⟨c, cs, hcons, hd⟩

theorem parseIntGo_natDecimal (n : Nat) (h : n < 2 ^ 63) :
    parseIntGo (natDecimal n) = some (n : Int) := by
  obtain ⟨c, cs, hcons, hc₁, hc₂⟩ := natDecimal_head n
  have h43 : ¬(c = 43) := by omega
  have h45 : ¬(c = 45) := by omega
  rw [hcons, parseIntGo, if_neg h43, if_neg h45, ← hcons,
    parseNatDigits_natDecimal]
  have h₃ : n < 9223372036854775808 := by omega
  simp [h₃]

theorem natDecimal_no (n sep : Nat) (h : 58 ≤ sep) : sep ∉ natDecimal n := by
  intro hmem
  have := natDecimal_digits n sep hmem
  omega

theorem parseIntGo_intDecimal (n : Int) (h₁ : -(2 ^ 63) ≤ n) (h₂ : n < 2 ^ 63) :
    parseIntGo (intDecimal n) = some n := by
  rw [intDecimal]
  by_cases hn : n < 0
  · have hle : (-n).toNat ≤ 9223372036854775808 := by omega
    rw [if_pos hn]
    simp [parseIntGo, parseNatDigits_natDecimal, hle]
    omega
  · have hlt : n.toNat < 2 ^ 63 := by omega
    rw [if_neg hn, parseIntGo_natDecimal n.toNat hlt]
    congr 1
    omega

/-! ## Lemmas about `decodeInt` and `decodeString` on encoded input -/

theorem intDecimal_no_e (n : Int) : (101 : Nat) ∉ intDecimal n := by
  rw [intDecimal]
  by_cases hn : n < 0
  · rw [if_pos hn]
    intro hm
    rcases List.mem_cons.mp hm with h | h
    · omega
    · exact natDecimal_no _ 101 (by omega) h
  · rw [if_neg hn]
    exact natDecimal_no _ 101 (by omega)

theorem decodeInt_enc (n : Int) (h₁ : -(2 ^ 63) ≤ n) (h₂ : n < 2 ^ 63)
    (c : Nat) (rest : List Nat) :
    decodeInt (c :: intDecimal n ++ 101 :: rest) = .ok (n, rest) := by
  rw [List.cons_append, decodeInt,
    readUntil_clean 101 (intDecimal n) rest (intDecimal_no_e n)]
  simp [parseIntGo_intDecimal n h₁ h₂]

theorem decodeString_strEnc (s : List Nat) (h : s.length < 2 ^ 63)
    (rest : List Nat) :
    decodeString (strEnc s ++ rest) = .ok (s, rest) := by
  have hshape : strEnc s ++ rest = natDecimal s.length ++ 58 :: (s ++ rest) := by
    rw [strEnc]
    simp
  rw [hshape, decodeString,
    readUntil_clean 58 (natDecimal s.length) (s ++ rest)
      (natDecimal_no _ 58 le_rfl)]
  have hneg : ¬((s.length : Int) < 0) := by omega
  have htn : (s.length : Int).toNat = s.length := by omega
  have hlen : ¬((s ++ rest).length < s.length) := by simp
  simp [parseIntGo_natDecimal s.length h, hneg, htn, hlen,
    List.take_left, List.drop_left]

/-! ## Consumption: a successful decode strictly shortens the input -/

theorem readUntil_length {sep : Nat} {l a r : List Nat}
    (h : readUntil sep l = some (a, r)) :
    l.length = a.length + r.length + 1 := by
  obtain ⟨-, heq⟩ := readUntil_eq_some h
  rw [heq]
  simp
  omega


theorem decodeInt_consumes {l : List Nat} {v : Int} {r : List Nat}
    (h : decodeInt l = .ok (v, r)) : r.length < l.length := by
  match l with
  | [] => simp [decodeInt] at h
  | c :: rest =>
    rw [decodeInt] at h
    split at h
    · simp at h
    · rename_i a r₂ hm
      split at h
      · simp at h
      · simp at h
        obtain ⟨-, hr⟩ := h
        subst hr
        have hlen := readUntil_length hm
        simp
        omega

theorem decodeString_consumes {l s r : List Nat}
    (h : decodeString l = .ok (s, r)) : r.length < l.length := by
  rw [decodeString] at h
  split at h
  · simp at h
  · rename_i a r₂ hm
    split at h
    · simp at h
    · rename_i m hp
      split at h
      · simp at h
      · split at h
        · simp at h
        · rename_i hneg htr
          simp at h
          obtain ⟨-, hr⟩ := h
          subst hr
          have hlen := readUntil_length hm
          have := List.length_drop m.toNat r₂
          omega

theorem decode_consumes :
    ∀ f : Nat,
      (∀ l v r, decodeF f l = .ok (v, r) → r.length < l.length) ∧
      (∀ l v r, decodeList f l = .ok (v, r) → r.length < l.length) ∧
      (∀ l vs r, decodeListItems f l = .ok (vs, r) → r.length < l.length) ∧
      (∀ acc l v r, decodeDictItems f acc l = .ok (v, r) →
        r.length < l.length) ∧
      (∀ l v r, decodeDict f l = .ok (v, r) → r.length < l.length) := by
  intro f
  induction f with
  | zero =>
    refine ⟨?_, ?_, ?_, ?_, ?_⟩
    · intro l v r h; simp [decodeF] at h
    · intro l v r h; simp [decodeList] at h
    · intro l vs r h; simp [decodeListItems] at h
    · intro acc l v r h; simp [decodeDictItems] at h
    · intro l v r h; simp [decodeDict] at h
  | succ n ih =>
    obtain ⟨ihF, ihL, ihLI, ihDI, ihD⟩ := ih
    refine ⟨?_, ?_, ?_, ?_, ?_⟩
    · -- decodeF
      intro l v r h
      match l with
      | [] => simp [decodeF] at h
      | c :: rest =>
        rw [decodeF] at h
        by_cases h105 : c = 105
        · rw [if_pos h105] at h
          cases hi : decodeInt (c :: rest) with
          | error e => rw [hi] at h; simp at h
          | ok p =>
            obtain ⟨m, r₂⟩ := p
            rw [hi] at h
            simp at h
            obtain ⟨-, hr⟩ := h
            subst hr
            exact decodeInt_consumes hi
        · rw [if_neg h105] at h
          by_cases hdig : 48 ≤ c ∧ c ≤ 57
          · rw [if_pos hdig] at h
            cases hs : decodeString (c :: rest) with
            | error e => rw [hs] at h; simp at h
            | ok p =>
              obtain ⟨s, r₂⟩ := p
              rw [hs] at h
              simp at h
              obtain ⟨-, hr⟩ := h
              subst hr
              exact decodeString_consumes hs
          · rw [if_neg hdig] at h
            by_cases h108 : c = 108
            · rw [if_pos h108] at h
              exact ihL _ _ _ h
            · rw [if_neg h108] at h
              by_cases h100 : c = 100
              · rw [if_pos h100] at h
                exact ihD _ _ _ h
              · rw [if_neg h100] at h
                simp at h
    · -- decodeList
      intro l v r h
      match l with
      | [] => simp [decodeList] at h
      | c :: rest =>
        rw [decodeList] at h
        cases hli : decodeListItems n rest with
        | error e => rw [hli] at h; simp at h
        | ok p =>
          obtain ⟨items, r₂⟩ := p
          rw [hli] at h
          simp at h
          obtain ⟨-, hr⟩ := h
          subst hr
          have := ihLI _ _ _ hli
          simp
          omega
    · -- decodeListItems
      intro l vs r h
      match l with
      | [] => simp [decodeListItems] at h
      | c :: rest =>
        rw [decodeListItems] at h
        by_cases h101 : c = 101
        · rw [if_pos h101] at h
          simp at h
          obtain ⟨-, hr⟩ := h
          subst hr
          simp
        · rw [if_neg h101] at h
          cases hd : decodeF n (c :: rest) with
          | error e => rw [hd] at h; simp at h
          | ok p =>
            obtain ⟨item, r₂⟩ := p
            rw [hd] at h
            simp only [] at h
            cases hrest : decodeListItems n r₂ with
            | error e => rw [hrest] at h; simp at h
            | ok q =>
              obtain ⟨items, r₃⟩ := q
              rw [hrest] at h
              simp at h
              obtain ⟨-, hr⟩ := h
              subst hr
              have h₁ := ihF _ _ _ hd
              have h₂ := ihLI _ _ _ hrest
              simp at h₁
              simp
              omega
    · -- decodeDictItems
      intro acc l v r h
      match l with
      | [] => simp [decodeDictItems] at h
      | c :: rest =>
        rw [decodeDictItems] at h
        by_cases h101 : c = 101
        · rw [if_pos h101] at h
          simp at h
          obtain ⟨-, hr⟩ := h
          subst hr
          simp
        · rw [if_neg h101] at h
          cases hk : decodeString (c :: rest) with
          | error e => rw [hk] at h; simp at h
          | ok p =>
            obtain ⟨key, r₂⟩ := p
            rw [hk] at h
            simp only [] at h
            cases hv : decodeF n r₂ with
            | error e => rw [hv] at h; simp at h
            | ok q =>
              obtain ⟨value, r₃⟩ := q
              rw [hv] at h
              simp only [] at h
              have h₁ := decodeString_consumes hk
              have h₂ := ihF _ _ _ hv
              have h₃ := ihDI _ _ _ _ h
              simp at h₁
              simp
              omega
    · -- decodeDict
      intro l v r h
      match l with
      | [] => simp [decodeDict] at h
      | c :: rest =>
        rw [decodeDict] at h
        have := ihDI _ _ _ _ h
        simp at this ⊢
        omega

/-! ## Fuel monotonicity: more fuel preserves successful decodes -/

theorem decode_mono :
    ∀ f : Nat,
      (∀ m l v r, f ≤ m → decodeF f l = .ok (v, r) →
        decodeF m l = .ok (v, r)) ∧
      (∀ m l v r, f ≤ m → decodeList f l = .ok (v, r) →
        decodeList m l = .ok (v, r)) ∧
      (∀ m l vs r, f ≤ m → decodeListItems f l = .ok (vs, r) →
        decodeListItems m l = .ok (vs, r)) ∧
      (∀ m acc l v r, f ≤ m → decodeDictItems f acc l = .ok (v, r) →
        decodeDictItems m acc l = .ok (v, r)) ∧
      (∀ m l v r, f ≤ m → decodeDict f l = .ok (v, r) →
        decodeDict m l = .ok (v, r)) := by
  intro f
  induction f with
  | zero =>
    refine ⟨?_, ?_, ?_, ?_, ?_⟩
    · intro m l v r _ h; simp [decodeF] at h
    · intro m l v r _ h; simp [decodeList] at h
    · intro m l vs r _ h; simp [decodeListItems] at h
    · intro m acc l v r _ h; simp [decodeDictItems] at h
    · intro m l v r _ h; simp [decodeDict] at h
  | succ n ih =>
    obtain ⟨ihF, ihL, ihLI, ihDI, ihD⟩ := ih
    refine ⟨?_, ?_, ?_, ?_, ?_⟩
    · -- decodeF
      intro m l v r hm h
      match m, hm with
      | m + 1, hm =>
        have hnm : n ≤ m := by omega
        match l with
        | [] => simp [decodeF] at h
        | c :: rest =>
          rw [decodeF] at h ⊢
          by_cases h105 : c = 105
          · rwa [if_pos h105] at h ⊢
          · rw [if_neg h105] at h ⊢
            by_cases hdig : 48 ≤ c ∧ c ≤ 57
            · rwa [if_pos hdig] at h ⊢
            · rw [if_neg hdig] at h ⊢
              by_cases h108 : c = 108
              · rw [if_pos h108] at h ⊢
                exact ihL _ _ _ _ hnm h
              · rw [if_neg h108] at h ⊢
                by_cases h100 : c = 100
                · rw [if_pos h100] at h ⊢
                  exact ihD _ _ _ _ hnm h
                · rwa [if_neg h100] at h ⊢
    · -- decodeList
      intro m l v r hm h
      match m, hm with
      | m + 1, hm =>
        have hnm : n ≤ m := by omega
        match l with
        | [] => simp [decodeList] at h
        | c :: rest =>
          rw [decodeList] at h ⊢
          cases hli : decodeListItems n rest with
          | error e => rw [hli] at h; simp at h
          | ok p =>
            obtain ⟨items, r₂⟩ := p
            rw [hli] at h
            rw [ihLI _ _ _ _ hnm hli]
            exact h
    · -- decodeListItems
      intro m l vs r hm h
      match m, hm with
      | m + 1, hm =>
        have hnm : n ≤ m := by omega
        match l with
        | [] => simp [decodeListItems] at h
        | c :: rest =>
          rw [decodeListItems] at h ⊢
          by_cases h101 : c = 101
          · rwa [if_pos h101] at h ⊢
          · rw [if_neg h101] at h ⊢
            cases hd : decodeF n (c :: rest) with
            | error e => rw [hd] at h; simp at h
            | ok p =>
              obtain ⟨item, r₂⟩ := p
              rw [hd] at h
              rw [ihF _ _ _ _ hnm hd]
              simp only [] at h ⊢
              cases hrest : decodeListItems n r₂ with
              | error e => rw [hrest] at h; simp at h
              | ok q =>
                obtain ⟨items, r₃⟩ := q
                rw [hrest] at h
                rw [ihLI _ _ _ _ hnm hrest]
                exact h
    · -- decodeDictItems
      intro m acc l v r hm h
      match m, hm with
      | m + 1, hm =>
        have hnm : n ≤ m := by omega
        match l with
        | [] => simp [decodeDictItems] at h
        | c :: rest =>
          rw [decodeDictItems] at h ⊢
          by_cases h101 : c = 101
          · rwa [if_pos h101] at h ⊢
          · rw [if_neg h101] at h ⊢
            cases hk : decodeString (c :: rest) with
            | error e => rw [hk] at h; simp at h
            | ok p =>
              obtain ⟨key, r₂⟩ := p
              rw [hk] at h
              simp only [] at h ⊢
              cases hv : decodeF n r₂ with
              | error e => rw [hv] at h; simp at h
              | ok q =>
                obtain ⟨value, r₃⟩ := q
                rw [hv] at h
                rw [ihF _ _ _ _ hnm hv]
                simp only [] at h ⊢
                exact ihDI _ _ _ _ _ hnm h
    · -- decodeDict
      intro m l v r hm h
      match m, hm with
      | m + 1, hm =>
        have hnm : n ≤ m := by omega
        match l with
        | [] => simp [decodeDict] at h
        | c :: rest =>
          rw [decodeDict] at h ⊢
          exact ihDI _ _ _ _ _ hnm h

/-! ## Extension: trailing bytes do not change a successful decode -/

theorem readUntil_append {sep : Nat} {l a r : List Nat} (t : List Nat)
    (h : readUntil sep l = some (a, r)) :
    readUntil sep (l ++ t) = some (a, r ++ t) := by
  obtain ⟨hsep, heq⟩ := readUntil_eq_some h
  subst heq
  rw [List.append_assoc, List.cons_append]
  exact readUntil_clean sep a (r ++ t) hsep

theorem decodeInt_append {l : List Nat} {v : Int} {r : List Nat} (t : List Nat)
    (h : decodeInt l = .ok (v, r)) :
    decodeInt (l ++ t) = .ok (v, r ++ t) := by
  match l with
  | [] => simp [decodeInt] at h
  | c :: rest =>
    rw [decodeInt] at h
    cases hm : readUntil 101 rest with
    | none => rw [hm] at h; simp at h
    | some p =>
      obtain ⟨a, r₂⟩ := p
      rw [hm] at h
      simp only [] at h
      cases hp : parseIntGo a with
      | none => rw [hp] at h; simp at h
      | some m =>
        rw [hp] at h
        simp at h
        obtain ⟨hv, hr⟩ := h
        subst hv; subst hr
        rw [List.cons_append, decodeInt]
        simp [readUntil_append t hm, hp]

theorem decodeString_append {l s r : List Nat} (t : List Nat)
    (h : decodeString l = .ok (s, r)) :
    decodeString (l ++ t) = .ok (s, r ++ t) := by
  rw [decodeString] at h
  cases hm : readUntil 58 l with
  | none => rw [hm] at h; simp at h
  | some p =>
    obtain ⟨a, r₂⟩ := p
    rw [hm] at h
    simp only [] at h
    cases hp : parseIntGo a with
    | none => rw [hp] at h; simp at h
    | some m =>
      rw [hp] at h
      simp only [] at h
      by_cases hneg : m < 0
      · rw [if_pos hneg] at h; simp at h
      · rw [if_neg hneg] at h
        by_cases htr : r₂.length < m.toNat
        · rw [if_pos htr] at h; simp at h
        · rw [if_neg htr] at h
          simp at h
          obtain ⟨hs, hr⟩ := h
          subst hs; subst hr
          have hle : m.toNat ≤ r₂.length := by omega
          have htr₂ : ¬((r₂ ++ t).length < m.toNat) := by
            simp
            omega
          rw [decodeString]
          simp [readUntil_append t hm, hp, hneg, htr₂,
            List.take_append_of_le_length hle,
            List.drop_append_of_le_length hle]
          omega

theorem decode_append :
    ∀ f : Nat,
      (∀ l v r t, decodeF f l = .ok (v, r) →
        decodeF f (l ++ t) = .ok (v, r ++ t)) ∧
      (∀ l v r t, decodeList f l = .ok (v, r) →
        decodeList f (l ++ t) = .ok (v, r ++ t)) ∧
      (∀ l vs r t, decodeListItems f l = .ok (vs, r) →
        decodeListItems f (l ++ t) = .ok (vs, r ++ t)) ∧
      (∀ acc l v r t, decodeDictItems f acc l = .ok (v, r) →
        decodeDictItems f acc (l ++ t) = .ok (v, r ++ t)) ∧
      (∀ l v r t, decodeDict f l = .ok (v, r) →
        decodeDict f (l ++ t) = .ok (v, r ++ t)) := by
  intro f
  induction f with
  | zero =>
    refine ⟨?_, ?_, ?_, ?_, ?_⟩
    · intro l v r t h; simp [decodeF] at h
    · intro l v r t h; simp [decodeList] at h
    · intro l vs r t h; simp [decodeListItems] at h
    · intro acc l v r t h; simp [decodeDictItems] at h
    · intro l v r t h; simp [decodeDict] at h
  | succ n ih =>
    obtain ⟨ihF, ihL, ihLI, ihDI, ihD⟩ := ih
    refine ⟨?_, ?_, ?_, ?_, ?_⟩
    · -- decodeF
      intro l v r t h
      match l with
      | [] => simp [decodeF] at h
      | c :: rest =>
        rw [decodeF] at h
        rw [List.cons_append, decodeF]
        by_cases h105 : c = 105
        · rw [if_pos h105] at h ⊢
          cases hi : decodeInt (c :: rest) with
          | error e => rw [hi] at h; simp at h
          | ok p =>
            obtain ⟨m, r₂⟩ := p
            rw [hi] at h
            simp only [] at h
            have := decodeInt_append t hi
            rw [List.cons_append] at this
            rw [this]
            simp only [] at h ⊢
            simp at h
            obtain ⟨hv, hr⟩ := h
            subst hv; subst hr
            rfl
        · rw [if_neg h105] at h ⊢
          by_cases hdig : 48 ≤ c ∧ c ≤ 57
          · rw [if_pos hdig] at h ⊢
            cases hs : decodeString (c :: rest) with
            | error e => rw [hs] at h; simp at h
            | ok p =>
              obtain ⟨s, r₂⟩ := p
              rw [hs] at h
              simp only [] at h
              have := decodeString_append t hs
              rw [List.cons_append] at this
              rw [this]
              simp at h
              obtain ⟨hv, hr⟩ := h
              subst hv; subst hr
              rfl
          · rw [if_neg hdig] at h ⊢
            by_cases h108 : c = 108
            · rw [if_pos h108] at h ⊢
              rw [← List.cons_append]
              exact ihL _ _ _ _ h
            · rw [if_neg h108] at h ⊢
              by_cases h100 : c = 100
              · rw [if_pos h100] at h ⊢
                rw [← List.cons_append]
                exact ihD _ _ _ _ h
              · rw [if_neg h100] at h; simp at h
    · -- decodeList
      intro l v r t h
      match l with
      | [] => simp [decodeList] at h
      | c :: rest =>
        rw [decodeList] at h
        rw [List.cons_append, decodeList]
        cases hli : decodeListItems n rest with
        | error e => rw [hli] at h; simp at h
        | ok p =>
          obtain ⟨items, r₂⟩ := p
          rw [hli] at h
          simp only [] at h
          rw [ihLI _ _ _ _ hli]
          simp at h
          obtain ⟨hv, hr⟩ := h
          subst hv; subst hr
          rfl
    · -- decodeListItems
      intro l vs r t h
      match l with
      | [] => simp [decodeListItems] at h
      | c :: rest =>
        rw [decodeListItems] at h
        rw [List.cons_append, decodeListItems]
        by_cases h101 : c = 101
        · rw [if_pos h101] at h ⊢
          simp at h
          obtain ⟨hv, hr⟩ := h
          subst hv; subst hr
          rfl
        · rw [if_neg h101] at h ⊢
          cases hd : decodeF n (c :: rest) with
          | error e => rw [hd] at h; simp at h
          | ok p =>
            obtain ⟨item, r₂⟩ := p
            rw [hd] at h
            simp only [] at h
            have hda := ihF _ _ _ t hd
            rw [List.cons_append] at hda
            rw [hda]
            simp only [] at h ⊢
            cases hrest : decodeListItems n r₂ with
            | error e => rw [hrest] at h; simp at h
            | ok q =>
              obtain ⟨items, r₃⟩ := q
              rw [hrest] at h
              simp only [] at h
              rw [ihLI _ _ _ _ hrest]
              simp at h
              obtain ⟨hv, hr⟩ := h
              subst hv; subst hr
              rfl
    · -- decodeDictItems
      intro acc l v r t h
      match l with
      | [] => simp [decodeDictItems] at h
      | c :: rest =>
        rw [decodeDictItems] at h
        rw [List.cons_append, decodeDictItems]
        by_cases h101 : c = 101
        · rw [if_pos h101] at h ⊢
          simp at h
          obtain ⟨hv, hr⟩ := h
          subst hv; subst hr
          rfl
        · rw [if_neg h101] at h ⊢
          cases hk : decodeString (c :: rest) with
          | error e => rw [hk] at h; simp at h
          | ok p =>
            obtain ⟨key, r₂⟩ := p
            rw [hk] at h
            simp only [] at h
            have hka := decodeString_append t hk
            rw [List.cons_append] at hka
            rw [hka]
            simp only [] at h ⊢
            cases hv₂ : decodeF n r₂ with
            | error e => rw [hv₂] at h; simp at h
            | ok q =>
              obtain ⟨value, r₃⟩ := q
              rw [hv₂] at h
              simp only [] at h
              rw [ihF _ _ _ _ hv₂]
              simp only [] at h ⊢
              exact ihDI _ _ _ _ _ h
    · -- decodeDict
      intro l v r t h
      match l with
      | [] => simp [decodeDict] at h
      | c :: rest =>
        rw [decodeDict] at h
        rw [List.cons_append, decodeDict]
        exact ihDI _ _ _ _ _ h

/-! ## Fuel sufficiency: the wrapper fuel never runs out -/

theorem decodeInt_no_outOfFuel (l : List Nat) :
    decodeInt l ≠ .error .outOfFuel := by
  match l with
  | [] => simp [decodeInt]
  | c :: rest =>
    rw [decodeInt]
    cases readUntil 101 rest with
    | none => simp
    | some p =>
      obtain ⟨a, r⟩ := p
      simp only []
      cases parseIntGo a <;> simp

theorem decodeString_no_outOfFuel (l : List Nat) :
    decodeString l ≠ .error .outOfFuel := by
  rw [decodeString]
  cases readUntil 58 l with
  | none => simp
  | some p =>
    obtain ⟨a, r⟩ := p
    simp only []
    cases parseIntGo a with
    | none => simp
    | some m =>
      simp only []
      by_cases hneg : m < 0
      · simp [hneg]
      · rw [if_neg hneg]
        by_cases htr : r.length < m.toNat <;> simp [htr]

theorem decode_fuel :
    ∀ f : Nat,
      (∀ l, 3 * l.length + 2 ≤ f → decodeF f l ≠ .error .outOfFuel) ∧
      (∀ l, 3 * l.length + 1 ≤ f → decodeList f l ≠ .error .outOfFuel) ∧
      (∀ l, 3 * l.length + 3 ≤ f → decodeListItems f l ≠ .error .outOfFuel) ∧
      (∀ acc l, 3 * l.length + 3 ≤ f →
        decodeDictItems f acc l ≠ .error .outOfFuel) ∧
      (∀ l, 3 * l.length + 1 ≤ f → decodeDict f l ≠ .error .outOfFuel) := by
  intro f
  induction f with
  | zero =>
    refine ⟨?_, ?_, ?_, ?_, ?_⟩
    · intro l h; omega
    · intro l h; omega
    · intro l h; omega
    · intro acc l h; omega
    · intro l h; omega
  | succ n ih =>
    obtain ⟨ihF, ihL, ihLI, ihDI, ihD⟩ := ih
    refine ⟨?_, ?_, ?_, ?_, ?_⟩
    · -- decodeF
      intro l hf
      match l with
      | [] => simp [decodeF]
      | c :: rest =>
        simp only [List.length_cons] at hf
        rw [decodeF]
        by_cases h105 : c = 105
        · rw [if_pos h105]
          cases hi : decodeInt (c :: rest) with
          | error e =>
            simp only []
            intro hcon
            simp at hcon
            subst hcon
            exact decodeInt_no_outOfFuel _ hi
          | ok p => obtain ⟨m, r₂⟩ := p; simp
        · rw [if_neg h105]
          by_cases hdig : 48 ≤ c ∧ c ≤ 57
          · rw [if_pos hdig]
            cases hs : decodeString (c :: rest) with
            | error e =>
              simp only []
              intro hcon
              simp at hcon
              subst hcon
              exact decodeString_no_outOfFuel _ hs
            | ok p => obtain ⟨s, r₂⟩ := p; simp
          · rw [if_neg hdig]
            by_cases h108 : c = 108
            · rw [if_pos h108]
              exact ihL _ (by simp; omega)
            · rw [if_neg h108]
              by_cases h100 : c = 100
              · rw [if_pos h100]
                exact ihD _ (by simp; omega)
              · rw [if_neg h100]; simp
    · -- decodeList
      intro l hf
      match l with
      | [] => simp [decodeList]
      | c :: rest =>
        simp only [List.length_cons] at hf
        rw [decodeList]
        cases hli : decodeListItems n rest with
        | error e =>
          simp only []
          intro hcon
          simp at hcon
          subst hcon
          exact ihLI _ (by omega) hli
        | ok p => obtain ⟨items, r₂⟩ := p; simp
    · -- decodeListItems
      intro l hf
      match l with
      | [] => simp [decodeListItems]
      | c :: rest =>
        simp only [List.length_cons] at hf
        rw [decodeListItems]
        by_cases h101 : c = 101
        · rw [if_pos h101]; simp
        · rw [if_neg h101]
          cases hd : decodeF n (c :: rest) with
          | error e =>
            simp only []
            intro hcon
            simp at hcon
            subst hcon
            exact ihF _ (by simp; omega) hd
          | ok p =>
            obtain ⟨item, r₂⟩ := p
            simp only []
            have hcons := (decode_consumes n).1 _ _ _ hd
            simp at hcons
            cases hrest : decodeListItems n r₂ with
            | error e =>
              simp only []
              intro hcon
              simp at hcon
              subst hcon
              exact ihLI _ (by omega) hrest
            | ok q => obtain ⟨items, r₃⟩ := q; simp
    · -- decodeDictItems
      intro acc l hf
      match l with
      | [] => simp [decodeDictItems]
      | c :: rest =>
        simp only [List.length_cons] at hf
        rw [decodeDictItems]
        by_cases h101 : c = 101
        · rw [if_pos h101]; simp
        · rw [if_neg h101]
          cases hk : decodeString (c :: rest) with
          | error e =>
            simp only []
            intro hcon
            simp at hcon
            subst hcon
            exact decodeString_no_outOfFuel _ hk
          | ok p =>
            obtain ⟨key, r₂⟩ := p
            simp only []
            have hcons := decodeString_consumes hk
            simp at hcons
            cases hv : decodeF n r₂ with
            | error e =>
              simp only []
              intro hcon
              simp at hcon
              subst hcon
              exact ihF _ (by omega) hv
            | ok q =>
              obtain ⟨value, r₃⟩ := q
              simp only []
              have hcons₂ := (decode_consumes n).1 _ _ _ hv
              exact ihDI _ _ (by omega)
    · -- decodeDict
      intro l hf
      match l with
      | [] => simp [decodeDict]
      | c :: rest =>
        simp only [List.length_cons] at hf
        rw [decodeDict]
        exact ihDI _ _ (by omega)

/-- With the fuel supplied by the top-level wrapper, the fuel artefact
never appears: `decode` returns exactly what the unbounded Go recursion
returns on every finite input. -/
theorem decode_never_outOfFuel (l : List Nat) :
    decode l ≠ .error .outOfFuel := by
  rw [decode]
  exact (decode_fuel (3 * l.length + 2)).1 l (by omega)

/-! ## Structure of encoded values -/

theorem encode_cons (v : Bencode) :
    ∃ c cs, encode v = c :: cs ∧ c ≠ 101 := by
  match v with
  | .int n =>
    exact ⟨105, intDecimal n ++ [101], by rw [encode, List.cons_append],
      by omega⟩
  | .str s =>
    obtain ⟨c, cs, hcons, hc₁, hc₂⟩ := natDecimal_head s.length
    refine ⟨c, cs ++ 58 :: s, ?_, by omega⟩
    rw [encode, strEnc, hcons]
    rfl
  | .list xs =>
    exact ⟨108, encodeList xs ++ [101], by rw [encode, List.cons_append],
      by omega⟩
  | .dict d =>
    exact ⟨100, joinVals (List.insertionSort keyRel (encEntries d)) ++ [101],
      by rw [encode, List.cons_append], by omega⟩

theorem wfList_mem {xs : List Bencode} (h : wfList xs = true) :
    ∀ x ∈ xs, wfB x = true := by
  induction xs with
  | nil => intro x hx; simp at hx
  | cons y ys ih =>
    rw [wfList] at h
    rw [Bool.and_eq_true] at h
    intro x hx
    rcases List.mem_cons.mp hx with h₁ | h₁
    · subst h₁; exact h.1
    · exact ih h.2 x h₁

theorem wfEntries_mem {d : List (List Nat × Bencode)}
    (h : wfEntries d = true) :
    ∀ p ∈ d, p.1.length < 2 ^ 63 ∧ wfB p.2 = true := by
  induction d with
  | nil => intro p hp; simp at hp
  | cons q qs ih =>
    obtain ⟨k, v⟩ := q
    rw [wfEntries] at h
    rw [Bool.and_eq_true, Bool.and_eq_true] at h
    intro p hp
    rcases List.mem_cons.mp hp with h₁ | h₁
    · subst h₁
      exact ⟨by simpa using h.1.1, h.1.2⟩
    · exact ih h.2 p h₁

theorem encEntries_eq_map (l : List (List Nat × Bencode)) :
    encEntries l = l.map (fun p => (p.1, strEnc p.1 ++ encode p.2)) := by
  induction l with
  | nil => rw [encEntries]; rfl
  | cons q qs ih =>
    obtain ⟨k, v⟩ := q
    rw [encEntries, ih]
    rfl

theorem canonEntries_eq_map (l : List (List Nat × Bencode)) :
    canonEntries l = l.map (fun p => (p.1, canon p.2)) := by
  induction l with
  | nil => rw [canonEntries]; rfl
  | cons q qs ih =>
    obtain ⟨k, v⟩ := q
    rw [canonEntries, ih]
    rfl

theorem canonList_eq_map (l : List Bencode) :
    canonList l = l.map canon := by
  induction l with
  | nil => rw [canonList]; rfl
  | cons x xs ih => rw [canonList, ih]; rfl

theorem joinVals_map_enc (l : List (List Nat × Bencode)) :
    joinVals (l.map (fun p => (p.1, strEnc p.1 ++ encode p.2))) =
      entriesBytes l := by
  induction l with
  | nil => rw [entriesBytes]; rfl
  | cons q qs ih =>
    obtain ⟨k, v⟩ := q
    rw [List.map_cons, joinVals, entriesBytes, ih, List.append_assoc]

theorem goInsert_fresh (k : List Nat) (v : Bencode) :
    ∀ acc : List (List Nat × Bencode), k ∉ acc.map Prod.fst →
      goInsert k v acc = acc ++ [(k, v)] := by
  intro acc
  induction acc with
  | nil => intro _; rw [goInsert]; rfl
  | cons q qs ih =>
    obtain ⟨k₂, v₂⟩ := q
    intro h
    rw [List.map_cons] at h
    have h₁ : ¬(k₂ = k) := fun hh => h (by rw [hh]; exact List.mem_cons_self _ _)
    have h₂ : k ∉ qs.map Prod.fst := fun hm => h (List.mem_cons_of_mem _ hm)
    rw [goInsert, if_neg h₁, ih h₂]
    rfl

theorem foldGo_fresh :
    ∀ (qs acc : List (List Nat × Bencode)),
      (∀ p ∈ qs, p.1 ∉ acc.map Prod.fst) →
      (qs.map Prod.fst).Nodup →
      foldGo acc qs = acc ++ canonEntries qs := by
  intro qs
  induction qs with
  | nil => intro acc _ _; rw [foldGo, canonEntries]; simp
  | cons q qs ih =>
    obtain ⟨k, v⟩ := q
    intro acc hfresh hnd
    rw [foldGo, canonEntries,
      goInsert_fresh _ _ _ (hfresh (k, v) (List.mem_cons_self _ _))]
    rw [List.map_cons] at hnd
    have hnd₂ := List.nodup_cons.mp hnd
    rw [ih (acc ++ [(k, canon v)]) ?_ hnd₂.2]
    · rw [List.append_assoc]
      rfl
    · intro p hp
      rw [List.map_append]
      intro hmem
      rcases List.mem_append.mp hmem with hm | hm
      · exact hfresh p (List.mem_cons_of_mem _ hp) hm
      · have hpk : p.1 = k := by simpa using hm
        have hin : p.1 ∈ qs.map Prod.fst := List.mem_map_of_mem Prod.fst hp
        rw [hpk] at hin
        exact hnd₂.1 hin

theorem distinctKeys_nodup {d : List (List Nat × Bencode)}
    (h : distinctKeys d = true) : (d.map Prod.fst).Nodup := by
  induction d with
  | nil => simp
  | cons q qs ih =>
    obtain ⟨k, v⟩ := q
    rw [distinctKeys] at h
    rw [Bool.and_eq_true] at h
    rw [List.map_cons, List.nodup_cons]
    refine ⟨?_, ih h.2⟩
    intro hmem
    obtain ⟨p, hp, hpk⟩ := List.mem_map.mp hmem
    have hall := h.1
    rw [List.all_eq_true] at hall
    have h₃ := hall p hp
    simp at h₃
    exact h₃ hpk

/-! ## The byte-lexicographic key order and sorting -/

theorem lexLe_total : ∀ a b : List Nat, lexLe a b = true ∨ lexLe b a = true := by
  intro a
  induction a with
  | nil => intro b; left; rw [lexLe]
  | cons x xs ih =>
    intro b
    match b with
    | [] => right; rw [lexLe]
    | y :: ys =>
      rw [lexLe, lexLe]
      rcases Nat.lt_trichotomy x y with h | h | h
      · left; rw [if_pos h]
      · subst h
        have hx : ¬(x < x) := lt_irrefl x
        simp only [if_neg hx]
        exact ih ys
      · right; rw [if_pos h]

theorem lexLe_trans :
    ∀ a b c : List Nat, lexLe a b = true → lexLe b c = true →
      lexLe a c = true := by
  intro a
  induction a with
  | nil => intro b c _ _; rw [lexLe]
  | cons x xs ih =>
    intro b c hab hbc
    match b, c with
    | [], _ => rw [lexLe] at hab; simp at hab
    | _ :: _, [] => rw [lexLe] at hbc; simp at hbc
    | y :: ys, z :: zs =>
      rw [lexLe] at hab hbc ⊢
      by_cases hxy : x < y
      · rw [if_pos hxy] at hab
        by_cases hyz : y < z
        · rw [if_pos (by omega : x < z)]
        · rw [if_neg hyz] at hbc
          by_cases hzy : z < y
          · rw [if_pos hzy] at hbc; simp at hbc
          · have hyz₂ : y = z := by omega
            subst hyz₂
            rw [if_pos hxy]
      · rw [if_neg hxy] at hab
        by_cases hyx : y < x
        · rw [if_pos hyx] at hab; simp at hab
        · rw [if_neg hyx] at hab
          have hxy₂ : x = y := by omega
          subst hxy₂
          by_cases hyz : x < z
          · rw [if_pos hyz]
          · rw [if_neg hyz] at hbc ⊢
            by_cases hzy : z < x
            · rw [if_pos hzy] at hbc; simp at hbc
            · rw [if_neg hzy] at hbc ⊢
              exact ih ys zs hab hbc

theorem sorted_insertionSort_keyRel {α : Type} (l : List (List Nat × α)) :
    List.Sorted keyRel (List.insertionSort keyRel l) := by
  haveI : IsTotal (List Nat × α) keyRel := ⟨fun p q => lexLe_total p.1 q.1⟩
  haveI : IsTrans (List Nat × α) keyRel :=
    ⟨fun p q r => lexLe_trans p.1 q.1 r.1⟩
  exact List.sorted_insertionSort keyRel l

theorem insertionSort_idem {α : Type} (l : List (List Nat × α)) :
    List.insertionSort keyRel (List.insertionSort keyRel l) =
      List.insertionSort keyRel l :=
  (sorted_insertionSort_keyRel l).insertionSort_eq

theorem orderedInsert_map_key {α β : Type}
    (f : (List Nat × α) → (List Nat × β)) (hf : ∀ p, (f p).1 = p.1)
    (p : List Nat × α) (l : List (List Nat × α)) :
    List.orderedInsert keyRel (f p) (l.map f) =
      (List.orderedInsert keyRel p l).map f := by
  induction l with
  | nil => rfl
  | cons q qs ih =>
    rw [List.map_cons, List.orderedInsert, List.orderedInsert]
    have hiff : keyRel (f p) (f q) ↔ keyRel p q := by
      rw [keyRel, keyRel, hf, hf]
    by_cases h : keyRel p q
    · rw [if_pos (hiff.mpr h), if_pos h]
      rfl
    · rw [if_neg (fun hh => h (hiff.mp hh)), if_neg h, List.map_cons, ih]

theorem insertionSort_map_key {α β : Type}
    (f : (List Nat × α) → (List Nat × β)) (hf : ∀ p, (f p).1 = p.1)
    (l : List (List Nat × α)) :
    List.insertionSort keyRel (l.map f) =
      (List.insertionSort keyRel l).map f := by
  induction l with
  | nil => rfl
  | cons q qs ih =>
    rw [List.map_cons, List.insertionSort, List.insertionSort, ih]
    exact orderedInsert_map_key f hf q _

/-! ## Canonicalization is idempotent and encode-invariant -/

theorem canon_canon : ∀ v, canon (canon v) = canon v := by
  intro v
  induction v using Bencode.inductionOn with
  | hint n => simp [canon]
  | hstr s => simp [canon]
  | hlist xs ih =>
    rw [canon, canon]
    congr 1
    rw [canonList_eq_map, canonList_eq_map, List.map_map]
    exact List.map_congr_left
      (fun a ha => by simp only [Function.comp_apply]; exact ih a ha)
  | hdict d ih =>
    rw [canon, canon]
    congr 1
    rw [canonEntries_eq_map, canonEntries_eq_map,
      insertionSort_map_key (fun p => (p.1, canon p.2)) (fun p => rfl) d,
      List.map_map]
    have hpt :
        (List.insertionSort keyRel d).map
            ((fun (p : List Nat × Bencode) => (p.1, canon p.2)) ∘
              (fun p => (p.1, canon p.2))) =
          (List.insertionSort keyRel d).map (fun p => (p.1, canon p.2)) := by
      refine List.map_congr_left (fun p hp => ?_)
      simp only [Function.comp_apply]
      have hmem : p ∈ d := (List.perm_insertionSort keyRel d).mem_iff.mp hp
      rw [ih p hmem]
    rw [hpt, ← insertionSort_map_key (fun p => (p.1, canon p.2)) (fun p => rfl) d]
    exact insertionSort_idem _

theorem encodeList_congr :
    ∀ xs : List Bencode, (∀ x ∈ xs, encode (canon x) = encode x) →
      encodeList (canonList xs) = encodeList xs := by
  intro xs
  induction xs with
  | nil => intro _; rw [canonList]
  | cons x xs₂ ih =>
    intro h
    rw [canonList, encodeList, encodeList, h x (List.mem_cons_self _ _),
      ih (fun a ha => h a (List.mem_cons_of_mem _ ha))]

theorem encode_canon : ∀ v, encode (canon v) = encode v := by
  intro v
  induction v using Bencode.inductionOn with
  | hint n => simp [canon]
  | hstr s => simp [canon]
  | hlist xs ih =>
    rw [canon, encode, encode]
    congr 2
    exact encodeList_congr xs ih
  | hdict d ih =>
    rw [canon, encode, encode]
    congr 3
    rw [encEntries_eq_map, encEntries_eq_map, canonEntries_eq_map,
      insertionSort_map_key (fun p => (p.1, canon p.2)) (fun p => rfl) d,
      List.map_map]
    have hpt :
        (List.insertionSort keyRel d).map
            ((fun (p : List Nat × Bencode) =>
                (p.1, strEnc p.1 ++ encode p.2)) ∘
              (fun p => (p.1, canon p.2))) =
          (List.insertionSort keyRel d).map
            (fun p => (p.1, strEnc p.1 ++ encode p.2)) := by
      refine List.map_congr_left (fun p hp => ?_)
      simp only [Function.comp_apply]
      have hmem : p ∈ d := (List.perm_insertionSort keyRel d).mem_iff.mp hp
      rw [ih p hmem]
    rw [hpt,
      ← insertionSort_map_key
        (fun p => (p.1, strEnc p.1 ++ encode p.2)) (fun p => rfl) d]
    exact insertionSort_idem _

/-! ## Round trip: decoding an encoded value yields its canonical form -/

theorem strEnc_cons (k : List Nat) :
    ∃ c cs, strEnc k = c :: cs ∧ 48 ≤ c ∧ c ≤ 57 := by
  obtain ⟨c, cs, h, h1, h2⟩ := natDecimal_head k.length
  exact ⟨c, cs ++ 58 :: k, by rw [strEnc, h]; rfl, h1, h2⟩

theorem encode_length_pos (v : Bencode) : 1 ≤ (encode v).length := by
  obtain ⟨c, cs, hcons, -⟩ := encode_cons v
  rw [hcons]
  simp

theorem decodeListItems_enc :
    ∀ xs : List Bencode, (∀ x ∈ xs, ItemOk x) →
      ∀ (f : Nat) (rest : List Nat), 3 * (encodeList xs).length + 3 ≤ f →
        decodeListItems f (encodeList xs ++ 101 :: rest) =
          .ok (canonList xs, rest) := by
  intro xs
  induction xs with
  | nil =>
    intro _ f rest hf
    match f, hf with
    | f + 1, _ =>
      rw [encodeList, canonList, List.nil_append, decodeListItems, if_pos rfl]
  | cons x xs ih =>
    intro hall f rest hf
    obtain ⟨c, cs, hcons, hne⟩ := encode_cons x
    have hlen : (encode x).length = cs.length + 1 := by rw [hcons]; rfl
    rw [encodeList] at hf ⊢
    simp only [List.length_append] at hf
    rw [List.append_assoc]
    match f, hf with
    | f + 1, hf =>
      rw [hcons, List.cons_append, decodeListItems, if_neg hne]
      have hx : decodeF f (encode x ++ (encodeList xs ++ 101 :: rest)) =
          .ok (canon x, encodeList xs ++ 101 :: rest) :=
        hall x (List.mem_cons_self _ _) f _ (by omega)
      rw [hcons, List.cons_append] at hx
      rw [hx]
      simp only []
      rw [ih (fun a ha => hall a (List.mem_cons_of_mem _ ha)) f rest
        (by omega)]
      rw [canonList]

theorem decodeDictItems_enc :
    ∀ qs : List (List Nat × Bencode),
      (∀ p ∈ qs, ItemOk p.2 ∧ p.1.length < 2 ^ 63) →
      ∀ (f : Nat) (acc : List (List Nat × Bencode)) (rest : List Nat),
        3 * (entriesBytes qs).length + 3 ≤ f →
        decodeDictItems f acc (entriesBytes qs ++ 101 :: rest) =
          .ok (.dict (foldGo acc qs), rest) := by
  intro qs
  induction qs with
  | nil =>
    intro _ f acc rest hf
    match f, hf with
    | f + 1, _ =>
      rw [entriesBytes, foldGo, List.nil_append, decodeDictItems, if_pos rfl]
  | cons q qs ih =>
    obtain ⟨k, v⟩ := q
    intro hall f acc rest hf
    obtain ⟨c, cs, hcons, hc1, hc2⟩ := strEnc_cons k
    have hkv := hall (k, v) (List.mem_cons_self _ _)
    have hkiok : ItemOk v := hkv.1
    have hklen : k.length < 2 ^ 63 := hkv.2
    have hsk : (strEnc k).length = cs.length + 1 := by rw [hcons]; rfl
    have hev := encode_length_pos v
    rw [entriesBytes] at hf ⊢
    simp only [List.length_append] at hf
    rw [List.append_assoc, List.append_assoc]
    match f, hf with
    | f + 1, hf =>
      rw [hcons, List.cons_append, decodeDictItems,
        if_neg (by omega : ¬(c = 101))]
      have hks : decodeString
          (strEnc k ++ (encode v ++ (entriesBytes qs ++ 101 :: rest))) =
          .ok (k, encode v ++ (entriesBytes qs ++ 101 :: rest)) :=
        decodeString_strEnc k hklen _
      rw [hcons, List.cons_append] at hks
      rw [hks]
      simp only []
      have hv : decodeF f (encode v ++ (entriesBytes qs ++ 101 :: rest)) =
          .ok (canon v, entriesBytes qs ++ 101 :: rest) :=
        hkiok f _ (by omega)
      rw [hv]
      simp only []
      rw [ih (fun p hp => hall p (List.mem_cons_of_mem _ hp)) f
        (goInsert k (canon v) acc) rest (by omega)]
      rw [foldGo]

theorem decodeF_encode : ∀ v, wfB v = true → ItemOk v := by
  intro v
  induction v using Bencode.inductionOn with
  | hint n =>
    intro hwf f rest hf
    rw [wfB, Bool.and_eq_true] at hwf
    have h₁ : -(2 ^ 63 : Int) ≤ n := by simpa using hwf.1
    have h₂ : n < 2 ^ 63 := by simpa using hwf.2
    rw [encode] at hf ⊢
    simp only [List.length_append, List.length_cons, List.length_nil] at hf
    simp only [List.cons_append, List.append_assoc, List.singleton_append,
      List.nil_append]
    match f, hf with
    | f + 1, hf =>
      rw [decodeF, if_pos rfl]
      have hi := decodeInt_enc n h₁ h₂ 105 rest
      simp only [List.cons_append] at hi
      rw [hi]
      simp only []
      rw [canon]
  | hstr s =>
    intro hwf f rest hf
    rw [wfB] at hwf
    have hlen : s.length < 2 ^ 63 := by simpa using hwf
    rw [encode] at hf ⊢
    obtain ⟨c, cs, hcons, hc1, hc2⟩ := strEnc_cons s
    have hsk : (strEnc s).length = cs.length + 1 := by rw [hcons]; rfl
    match f, hf with
    | f + 1, hf =>
      rw [hcons, List.cons_append, decodeF,
        if_neg (by omega : ¬(c = 105)), if_pos ⟨hc1, hc2⟩]
      have hds := decodeString_strEnc s hlen rest
      rw [hcons, List.cons_append] at hds
      rw [hds]
      simp only []
      rw [canon]
  | hlist xs ih =>
    intro hwf f rest hf
    rw [wfB] at hwf
    have hall : ∀ x ∈ xs, ItemOk x :=
      fun x hx => ih x hx (wfList_mem hwf x hx)
    rw [encode] at hf ⊢
    simp only [List.length_append, List.length_cons, List.length_nil] at hf
    simp only [List.cons_append, List.append_assoc, List.singleton_append,
      List.nil_append]
    match f, hf with
    | f + 1, hf =>
      rw [decodeF, if_neg (by omega : ¬((108 : Nat) = 105)),
        if_neg (by omega : ¬(48 ≤ (108 : Nat) ∧ (108 : Nat) ≤ 57)),
        if_pos rfl]
      match f, hf with
      | f + 1, hf =>
        rw [decodeList]
        rw [decodeListItems_enc xs hall f rest (by omega)]
        simp only []
        rw [canon]
  | hdict d ih =>
    intro hwf f rest hf
    rw [wfB, Bool.and_eq_true] at hwf
    have hall : ∀ p ∈ List.insertionSort keyRel d,
        ItemOk p.2 ∧ p.1.length < 2 ^ 63 := by
      intro p hp
      have hmem : p ∈ d := (List.perm_insertionSort keyRel d).mem_iff.mp hp
      have hw := wfEntries_mem hwf.2 p hmem
      exact ⟨ih p hmem hw.2, hw.1⟩
    have hbody : joinVals (List.insertionSort keyRel (encEntries d)) =
        entriesBytes (List.insertionSort keyRel d) := by
      rw [encEntries_eq_map,
        insertionSort_map_key (fun p => (p.1, strEnc p.1 ++ encode p.2))
          (fun p => rfl) d,
        joinVals_map_enc]
    rw [encode, hbody] at hf ⊢
    simp only [List.length_append, List.length_cons, List.length_nil] at hf
    simp only [List.cons_append, List.append_assoc, List.singleton_append,
      List.nil_append]
    match f, hf with
    | f + 1, hf =>
      rw [decodeF, if_neg (by omega : ¬((100 : Nat) = 105)),
        if_neg (by omega : ¬(48 ≤ (100 : Nat) ∧ (100 : Nat) ≤ 57)),
        if_neg (by omega : ¬((100 : Nat) = 108)), if_pos rfl]
      match f, hf with
      | f + 1, hf =>
        rw [decodeDict]
        rw [decodeDictItems_enc (List.insertionSort keyRel d) hall f []
          rest (by omega)]
        have hfold : foldGo [] (List.insertionSort keyRel d) =
            canonEntries (List.insertionSort keyRel d) := by
          rw [foldGo_fresh (List.insertionSort keyRel d) [] (by simp)
            (((List.perm_insertionSort keyRel d).map
                Prod.fst).nodup_iff.mpr (distinctKeys_nodup hwf.1))]
          rfl
        rw [hfold, canon, canonEntries_eq_map, canonEntries_eq_map,
          insertionSort_map_key (fun p => (p.1, canon p.2)) (fun p => rfl) d]

/-- Top-level round trip: decoding the canonical encoding of any
representable value succeeds, consumes the whole input, and returns the
canonical form of the value. -/
theorem decode_encode (v : Bencode) (h : wfB v = true) :
    decode (encode v) = .ok (canon v, []) := by
  rw [decode]
  have hx := decodeF_encode v h (3 * (encode v).length + 2) [] le_rfl
  rwa [List.append_nil] at hx

theorem decodeF_dict (qs : List (List Nat × Bencode))
    (hall : ∀ p ∈ qs, ItemOk p.2 ∧ p.1.length < 2 ^ 63)
    (f : Nat) (rest : List Nat)
    (hf : 3 * (entriesBytes qs).length + 8 ≤ f) :
    decodeF f (100 :: (entriesBytes qs ++ 101 :: rest)) =
      .ok (.dict (foldGo [] qs), rest) := by
  match f, hf with
  | f + 1, hf =>
    rw [decodeF, if_neg (by omega : ¬((100 : Nat) = 105)),
      if_neg (by omega : ¬(48 ≤ (100 : Nat) ∧ (100 : Nat) ≤ 57)),
      if_neg (by omega : ¬((100 : Nat) = 108)), if_pos rfl]
    match f, hf with
    | f + 1, hf =>
      rw [decodeDict]
      exact decodeDictItems_enc qs hall f [] rest (by omega)

/-! ## The claims -/

/-- C1: round-trip law.  For every representable generic value `v`
(64-bit integers, unique dictionary keys): decoding the canonical
encoding of `v` succeeds, consumes the whole input, and returns a value
equal to `v` up to the order of dictionary entries (`setEq`, the
compare-dictionaries-as-sets-of-pairs equality); and re-encoding the
decoded value reproduces the input bytes `encode v` exactly, so
`encode (decode b) = b` for every `b` in the range of `encode`. -/
theorem C1_round_trip (v : Bencode) (h : wfB v = true) :
    decode (encode v) = .ok (canon v, []) ∧ setEq (canon v) v ∧
      encode (canon v) = encode v :=
  ⟨decode_encode v h, canon_canon v, encode_canon v⟩

/-- C1 witness: the round-trip theorem applied to a concrete dictionary
whose entries are deliberately not in sorted key order. -/
theorem C1_round_trip_witness :
    wfB (Bencode.dict
      [(bs "b", .int 1), (bs "a", .str (bs "x")),
       (bs "c", .list [.int (-3), .str []])]) = true ∧
    (decode (encode (Bencode.dict
        [(bs "b", .int 1), (bs "a", .str (bs "x")),
         (bs "c", .list [.int (-3), .str []])])) =
      .ok (canon (Bencode.dict
        [(bs "b", .int 1), (bs "a", .str (bs "x")),
         (bs "c", .list [.int (-3), .str []])]), []) ∧
    setEq (canon (Bencode.dict
        [(bs "b", .int 1), (bs "a", .str (bs "x")),
         (bs "c", .list [.int (-3), .str []])]))
      (Bencode.dict
        [(bs "b", .int 1), (bs "a", .str (bs "x")),
         (bs "c", .list [.int (-3), .str []])]) ∧
    encode (canon (Bencode.dict
        [(bs "b", .int 1), (bs "a", .str (bs "x")),
         (bs "c", .list [.int (-3), .str []])])) =
      encode (Bencode.dict
        [(bs "b", .int 1), (bs "a", .str (bs "x")),
         (bs "c", .list [.int (-3), .str []])])) :=
  ⟨by decide, C1_round_trip _ (by decide)⟩

/-- C3: the claim says `decode` is total and in particular that the
input `d-1:xe` (a dictionary key whose declared length parses to `-1`)
yields an error rather than a crash.  The code crashes there: the Go
`decodeString` runs `make([]byte, length)` with `length = -1`, which
panics at runtime (`negLenPanic` marks that panic in the model), so the
claim describes the intended behaviour and the code violates it. -/
theorem C3_negative_length_panics :
    decode (bs "d-1:xe") = .error .negLenPanic := rfl

/-- C4 counterexample: the claim says decoding `i-0e` fails with a
malformed-integer error; in fact it succeeds and returns `0`, because
`strconv.ParseInt` accepts `-0`. -/
theorem C4_counterexample :
    decode (bs "i-0e") = .ok (.int 0, []) := rfl

/-- C4 amended: `i0e` decodes to `0`, and `i-0e` also decodes
successfully to `0` (the integer parser accepts a minus sign followed by
zero digits), rather than being rejected. -/
theorem C4_amended :
    decode (bs "i0e") = .ok (.int 0, []) ∧
      decode (bs "i-0e") = .ok (.int 0, []) :=
  ⟨rfl, rfl⟩

/-- C8: for every signed 64-bit integer `n`, decoding `i`, followed by
the minimal decimal representation of `n` (`intDecimal`, a leading `-`
exactly when `n < 0`, no leading zeros), followed by `e`, succeeds and
returns `n` with no input left over. -/
theorem C8_int_literals (n : Int) (h₁ : -(2 ^ 63) ≤ n) (h₂ : n < 2 ^ 63) :
    decode (105 :: intDecimal n ++ [101]) = .ok (.int n, []) := by
  have hw : wfB (.int n) = true := by
    rw [wfB]
    simp
    omega
  have h := decode_encode (.int n) hw
  rw [encode, canon] at h
  exact h

/-- C8 witness: the theorem applied at `n = -9223372036854775808`, the
most negative 64-bit integer. -/
theorem C8_int_literals_witness :
    -(2 ^ 63) ≤ (-9223372036854775808 : Int) ∧
      (-9223372036854775808 : Int) < 2 ^ 63 ∧
      decode (105 :: intDecimal (-9223372036854775808) ++ [101]) =
        .ok (.int (-9223372036854775808), []) :=
  ⟨by decide, by decide,
    C8_int_literals (-9223372036854775808) (by decide) (by decide)⟩

/-- C6: `decode` reads exactly one value.  If decoding `b` succeeds and
consumes all of `b`, then decoding `b ++ t` returns the very same value,
consumes exactly the bytes of `b` (the remainder is exactly `t`), and
requires no trailing terminator.  Consequently `DecodeTorrent`, which
ignores whatever follows the first value, gives the same result on
`b ++ t` as on `b`. -/
theorem C6_single_value (b t : List Nat) (v : Bencode)
    (h : decode b = .ok (v, [])) :
    decode (b ++ t) = .ok (v, t) ∧
      DecodeTorrent (b ++ t) = DecodeTorrent b := by
  have h₁ : decodeF (3 * b.length + 2) b = .ok (v, []) := h
  have h₂ := (decode_mono (3 * b.length + 2)).1 (3 * (b ++ t).length + 2)
    b v [] (by simp) h₁
  have h₃ := (decode_append (3 * (b ++ t).length + 2)).1 b v [] t h₂
  rw [List.nil_append] at h₃
  have hdec : decode (b ++ t) = .ok (v, t) := h₃
  refine ⟨hdec, ?_⟩
  rw [DecodeTorrent, DecodeTorrent, h, hdec]

/-- C6 witness: the theorem applied to the encoded integer `i3e` with
trailing junk `xx`. -/
theorem C6_single_value_witness :
    decode (bs "i3e") = .ok (.int 3, []) ∧
      decode (bs "i3e" ++ bs "xx") = .ok (.int 3, bs "xx") ∧
      DecodeTorrent (bs "i3e" ++ bs "xx") = DecodeTorrent (bs "i3e") :=
  ⟨rfl, (C6_single_value (bs "i3e") (bs "xx") (.int 3) rfl).1,
    (C6_single_value (bs "i3e") (bs "xx") (.int 3) rfl).2⟩

theorem dictGet_goInsert (k k₂ : List Nat) (v : Bencode) :
    ∀ acc, dictGet k (goInsert k₂ v acc) =
      if k₂ = k then some v else dictGet k acc := by
  intro acc
  induction acc with
  | nil =>
    rw [goInsert]
    by_cases h : k₂ = k <;> simp [dictGet, h]
  | cons q qs ih =>
    obtain ⟨k₃, v₃⟩ := q
    rw [goInsert]
    by_cases h : k₃ = k₂
    · rw [if_pos h, dictGet]
      by_cases h₂ : k₂ = k
      · rw [if_pos h₂, if_pos h₂]
      · rw [if_neg h₂, if_neg h₂, dictGet, if_neg (fun hc => h₂ (h ▸ hc))]
    · rw [if_neg h, dictGet, ih]
      by_cases h₃ : k₃ = k
      · have h₂ : ¬(k₂ = k) := fun hc => h (h₃.trans hc.symm)
        rw [if_pos h₃, if_neg h₂, dictGet, if_pos h₃]
      · by_cases h₂ : k₂ = k
        · rw [if_neg h₃, if_pos h₂, if_pos h₂]
        · rw [if_neg h₃, if_neg h₂, if_neg h₂, dictGet, if_neg h₃]

theorem dictGet_foldGo :
    ∀ (qs acc : List (List Nat × Bencode)) (k : List Nat),
      dictGet k (foldGo acc qs) =
        match lastVal k qs with
        | some v => some (canon v)
        | none => dictGet k acc := by
  intro qs
  induction qs with
  | nil => intro acc k; rw [foldGo, lastVal]
  | cons q qs ih =>
    obtain ⟨k₂, v⟩ := q
    intro acc k
    rw [foldGo, lastVal, ih]
    cases hl : lastVal k qs with
    | some w => simp only []
    | none =>
      simp only []
      rw [dictGet_goInsert]
      by_cases h : k₂ = k
      · simp [h]
      · simp [h]

/-- C7: duplicate dictionary keys.  Decoding a dictionary byte stream
built from any sequence of key/value bindings (duplicates included)
succeeds with no error, and every key of the resulting dictionary maps
to the value of its last occurrence in the input: the Go
`dict[key] = value` assignment silently overwrites earlier bindings. -/
theorem C7_duplicate_keys (qs : List (List Nat × Bencode))
    (hq : ∀ p ∈ qs, wfB p.2 = true ∧ p.1.length < 2 ^ 63) :
    decode (100 :: entriesBytes qs ++ [101]) =
        .ok (.dict (foldGo [] qs), []) ∧
      ∀ k v, lastVal k qs = some v →
        dictGet k (foldGo [] qs) = some (canon v) := by
  constructor
  · have hall : ∀ p ∈ qs, ItemOk p.2 ∧ p.1.length < 2 ^ 63 :=
      fun p hp => ⟨decodeF_encode p.2 (hq p hp).1, (hq p hp).2⟩
    have hshape : 100 :: entriesBytes qs ++ [101] =
        100 :: (entriesBytes qs ++ 101 :: []) := by
      simp
    rw [decode, hshape, decodeF_dict qs hall _ [] (by simp; omega)]
  · intro k v hlast
    rw [dictGet_foldGo qs [] k, hlast]

/-- C7 witness: the duplicate-key theorem at the concrete two-binding
input `d1:ai1e1:ai2ee`, whose decoded dictionary maps `a` to `2`. -/
theorem C7_duplicate_keys_witness :
    decode (100 :: entriesBytes [(bs "a", .int 1), (bs "a", .int 2)] ++
        [101]) =
      .ok (.dict (foldGo [] [(bs "a", .int 1), (bs "a", .int 2)]), []) ∧
      dictGet (bs "a") (foldGo [] [(bs "a", .int 1), (bs "a", .int 2)]) =
        some (canon (.int 2)) :=
  ⟨(C7_duplicate_keys [(bs "a", .int 1), (bs "a", .int 2)] (by decide)).1,
    (C7_duplicate_keys [(bs "a", .int 1), (bs "a", .int 2)]
      (by decide)).2 (bs "a") (.int 2) rfl⟩

/-- C9: string framing.  A declared length equal to the available bytes
decodes to exactly those bytes (for every byte string `s`, and at the
concrete inputs `4:spam` and `0:`), while a declared length exceeding
the available bytes by any positive amount fails with the truncated
error of `io.ReadFull` (universally, and at the concrete input
`5:spam`). -/
theorem C9_string_framing (s : List Nat) (k : Nat)
    (h₁ : s.length < 2 ^ 63) (h₂ : s.length + k + 1 < 2 ^ 63) :
    decode (natDecimal s.length ++ 58 :: s) = .ok (.str s, []) ∧
      decode (natDecimal (s.length + k + 1) ++ 58 :: s) =
        .error .truncated ∧
      decode (bs "4:spam") = .ok (.str (bs "spam"), []) ∧
      decode (bs "0:") = .ok (.str [], []) ∧
      decode (bs "5:spam") = .error .truncated := by
  refine ⟨?_, ?_, rfl, rfl, rfl⟩
  · have h := decode_encode (.str s) (by rw [wfB]; simpa using h₁)
    rw [encode, strEnc, canon] at h
    exact h
  · rw [decode]
    obtain ⟨c, cs, hcons, hc1, hc2⟩ := natDecimal_head (s.length + k + 1)
    obtain ⟨g, hg⟩ : ∃ g,
        3 * (natDecimal (s.length + k + 1) ++ 58 :: s).length + 2 = g + 1 :=
      ⟨3 * (natDecimal (s.length + k + 1) ++ 58 :: s).length + 1, by omega⟩
    have hds : decodeString (natDecimal (s.length + k + 1) ++ 58 :: s) =
        .error .truncated := by
      have hneg : ¬(((s.length + k + 1 : Nat) : Int) < 0) := by omega
      have htr : s.length < ((s.length + k + 1 : Nat) : Int).toNat := by
        omega
      rw [decodeString, readUntil_clean 58 _ s (natDecimal_no _ 58 le_rfl)]
      simp only []
      rw [parseIntGo_natDecimal _ h₂]
      simp only []
      rw [if_neg hneg, if_pos htr]
    rw [hg, hcons, List.cons_append, decodeF,
      if_neg (by omega : ¬(c = 105)), if_pos ⟨hc1, hc2⟩]
    rw [hcons, List.cons_append] at hds
    rw [hds]

/-- C9 witness: the framing theorem at `s = sp`, `k = 0`, where the
exact length `2:sp` succeeds and the oversized length `3:sp` is
truncated. -/
theorem C9_string_framing_witness :
    (bs "sp").length < 2 ^ 63 ∧ (bs "sp").length + 0 + 1 < 2 ^ 63 ∧
      (decode (natDecimal (bs "sp").length ++ 58 :: bs "sp") =
          .ok (.str (bs "sp"), []) ∧
        decode (natDecimal ((bs "sp").length + 0 + 1) ++ 58 :: bs "sp") =
          .error .truncated ∧
        decode (bs "4:spam") = .ok (.str (bs "spam"), []) ∧
        decode (bs "0:") = .ok (.str [], []) ∧
        decode (bs "5:spam") = .error .truncated) :=
  ⟨by decide, by decide, C9_string_framing (bs "sp") 0 (by decide) (by decide)⟩

/-- C2 counterexample: the claim says a missing `announce` and a
present-but-integer `announce` produce distinguishable errors.  They do
not: the Go code uses one combined type assertion
(`topLevel[announce].(string)`), so both documents hit the same
`missing required field announce` return, the identical error value. -/
theorem C2_counterexample :
    parseTorrent (.dict [(bs "announce", .int 5)]) =
        .error .missingAnnounce ∧
      parseTorrent (.dict []) = .error .missingAnnounce :=
  ⟨rfl, rfl⟩

/-- C2 amended: projecting a top-level dictionary whose `announce` is
absent, or present with any non-string type, fails with the one
missing-required-field error in both cases — there is no distinct
wrong-type error for `announce`. -/
theorem C2_amended (d : List (List Nat × Bencode))
    (h : dictGet (bs "announce") d = none ∨
      ∃ v, dictGet (bs "announce") d = some v ∧ ∀ s, v ≠ Bencode.str s) :
    parseTorrent (.dict d) = .error .missingAnnounce := by
  rw [parseTorrent]
  rcases h with h | ⟨v, hv, hns⟩
  · rw [h]
  · rw [hv]
    cases v with
    | str s => exact absurd rfl (hns s)
    | int n => rfl
    | list l => rfl
    | dict d₂ => rfl

/-- C2 witness: the amended theorem applied to a dictionary carrying an
integer-typed `announce`. -/
theorem C2_amended_witness :
    parseTorrent (.dict [(bs "announce", .int 5), (bs "info", .int 0)]) =
      .error .missingAnnounce :=
  C2_amended _ (.inr ⟨.int 5, rfl, fun _ h => Bencode.noConfusion h⟩)

/-- C10: wrong-typed optional fields are silently ignored.  With a valid
`announce` and `info`, a `comment` and a `created by` entry of any
non-string type neither causes an error nor reaches the output: the
projection succeeds and both output fields keep their empty Go zero
value. -/
theorem C10_optional_wrong_type (v w : Bencode)
    (hv : ∀ s, v ≠ Bencode.str s) (hw : ∀ s, w ≠ Bencode.str s) :
    parseTorrent (.dict [(bs "announce", .str (bs "u")),
      (bs "comment", v), (bs "created by", w),
      (bs "info", .dict [(bs "piece length", .int 1),
        (bs "pieces", .str []), (bs "name", .str (bs "n")),
        (bs "length", .int 7)])]) =
      .ok ⟨bs "u", [], 0, [], [], ⟨1, [], 0, bs "n", 7, []⟩⟩ := by
  cases v with
  | str s => exact absurd rfl (hv s)
  | int n =>
    cases w with
    | str s => exact absurd rfl (hw s)
    | int m => rfl
    | list l => rfl
    | dict d => rfl
  | list l =>
    cases w with
    | str s => exact absurd rfl (hw s)
    | int m => rfl
    | list l₂ => rfl
    | dict d => rfl
  | dict d =>
    cases w with
    | str s => exact absurd rfl (hw s)
    | int m => rfl
    | list l₂ => rfl
    | dict d₂ => rfl

/-- C10 witness: the theorem applied with an integer `comment` and a
dictionary `created by`. -/
theorem C10_optional_wrong_type_witness :
    parseTorrent (.dict [(bs "announce", .str (bs "u")),
      (bs "comment", .int 0), (bs "created by", .dict []),
      (bs "info", .dict [(bs "piece length", .int 1),
        (bs "pieces", .str []), (bs "name", .str (bs "n")),
        (bs "length", .int 7)])]) =
      .ok ⟨bs "u", [], 0, [], [], ⟨1, [], 0, bs "n", 7, []⟩⟩ :=
  C10_optional_wrong_type (.int 0) (.dict [])
    (fun _ h => Bencode.noConfusion h) (fun _ h => Bencode.noConfusion h)

/-- C5: mutual exclusion of `length` and `files` in the `info`
dictionary.  Given the required scalar fields (`piece length` integer,
`pieces` string, `name` string, and `private` absent or integer), an
`info` map containing both `length` and `files` fails with the
both-present error, one containing neither fails with the distinct
neither-present error, and — with no extra hypotheses — a successful
projection implies exactly one of the two keys was present. -/
theorem C5_length_files_exclusion (d : List (List Nat × Bencode))
    (hpl : ∃ n, dictGet (bs "piece length") d = some (.int n))
    (hpc : ∃ s, dictGet (bs "pieces") d = some (.str s))
    (hnm : ∃ s, dictGet (bs "name") d = some (.str s))
    (hpr : dictGet (bs "private") d = none ∨
      ∃ n, dictGet (bs "private") d = some (.int n)) :
    ((dictGet (bs "length") d).isSome ∧ (dictGet (bs "files") d).isSome →
      parseTorrentInfo d = .error .bothLengthAndFiles) ∧
      (dictGet (bs "length") d = none ∧ dictGet (bs "files") d = none →
        parseTorrentInfo d = .error .missingLengthAndFiles) ∧
      IErr.bothLengthAndFiles ≠ IErr.missingLengthAndFiles ∧
      (∀ info, parseTorrentInfo d = .ok info →
        ((dictGet (bs "length") d).isSome ↔
          ¬(dictGet (bs "files") d).isSome)) := by
  obtain ⟨pln, hpl⟩ := hpl
  obtain ⟨pcs, hpc⟩ := hpc
  obtain ⟨nms, hnm⟩ := hnm
  refine ⟨?_, ?_, by decide, ?_⟩
  · intro ⟨hl, hf⟩
    rw [parseTorrentInfo, hpl]
    simp only []
    rw [hpc]
    simp only []
    rw [hnm]
    simp only []
    rcases hpr with hprv | ⟨pn, hprv⟩ <;>
      (rw [hprv]; simp only []; rw [if_pos ⟨hl, hf⟩])
  · intro ⟨hl, hf⟩
    rw [parseTorrentInfo, hpl]
    simp only []
    rw [hpc]
    simp only []
    rw [hnm]
    simp only []
    rcases hpr with hprv | ⟨pn, hprv⟩ <;>
      (rw [hprv]; simp only []; rw [hl, hf]; simp)
  · intro info hok
    rw [parseTorrentInfo, hpl] at hok
    simp only [] at hok
    rw [hpc] at hok
    simp only [] at hok
    rw [hnm] at hok
    simp only [] at hok
    by_cases hl : (dictGet (bs "length") d).isSome <;>
      by_cases hf : (dictGet (bs "files") d).isSome
    · rcases hpr with hprv | ⟨pn, hprv⟩ <;>
        (rw [hprv] at hok; simp only [] at hok;
          rw [if_pos ⟨hl, hf⟩] at hok; exact absurd hok (by simp))
    · simp [hl, hf]
    · simp [hl, hf]
    · rcases hpr with hprv | ⟨pn, hprv⟩ <;>
        (rw [hprv] at hok; simp only [] at hok;
          rw [if_neg (by tauto), if_neg hl, if_neg hf] at hok;
          exact absurd hok (by simp))

/-- C5 witness: the theorem applied to a concrete `info` dictionary with
the required scalars, instantiating the both-present branch. -/
theorem C5_length_files_exclusion_witness :
    parseTorrentInfo [(bs "piece length", .int 1), (bs "pieces", .str []),
        (bs "name", .str (bs "n")), (bs "length", .int 7),
        (bs "files", .list [])] = .error .bothLengthAndFiles ∧
      IErr.bothLengthAndFiles ≠ IErr.missingLengthAndFiles :=
  ⟨(C5_length_files_exclusion
      [(bs "piece length", .int 1), (bs "pieces", .str []),
       (bs "name", .str (bs "n")), (bs "length", .int 7),
       (bs "files", .list [])]
      ⟨1, rfl⟩ ⟨[], rfl⟩ ⟨bs "n", rfl⟩ (.inl rfl)).1 (by decide),
    (C5_length_files_exclusion
      [(bs "piece length", .int 1), (bs "pieces", .str []),
       (bs "name", .str (bs "n")), (bs "length", .int 7),
       (bs "files", .list [])]
      ⟨1, rfl⟩ ⟨[], rfl⟩ ⟨bs "n", rfl⟩ (.inl rfl)).2.2.1⟩
